import Mathlib

/-!
A shallow embedding of the task-tree repository (db_context.py, main.py,
models.py): a store of rows keyed by integer id, hydration of rows into
task trees with a visited set, cycle checks on the parent chain, the
child-list rewrite, recursive delete, the status cascade, and the
HTTP-service handlers built on them.  Recursive Python procedures whose
recursion is not structurally bounded are embedded with an explicit fuel
parameter; a result of `none` at every fuel means the procedure does not
terminate.  Dynamic-typing failures of the Python code (a dataclass
constructed without a required field, a Task object used where an int id
is expected) are embedded as explicit `typeError` outcomes at exactly the
program points where Python raises.
-/

namespace Fest

/-- A stored row of the `tasks` table (db_context.py, `initialize`):
title, description, status, updated timestamp (abstracted to `Nat`),
parent id, list of child ids. -/
structure Row where
  title : String
  description : Option String
  status : Bool
  updated : Option Nat
  parent : Option Nat
  childs : List Nat
deriving DecidableEq, Repr

/-- The store: association list from id to row; the first match wins,
modelling a primary-key lookup. -/
abbrev Store := List (Nat × Row)

/-- `SELECT ... FROM tasks WHERE id = %s` returning at most one row. -/
def findRow : Store → Nat → Option Row
  | [], _ => none
  | (k, r) :: rest, id => if k = id then some r else findRow rest id

/-- The ids present in the store. -/
def keys (s : Store) : List Nat := s.map Prod.fst

/-- `UPDATE tasks SET ... WHERE id = %s`: apply `f` to every row whose key
is `id` (at most one in a well-formed store). -/
def mapRow (s : Store) (id : Nat) (f : Row → Row) : Store :=
  s.map (fun p => if p.1 = id then (p.1, f p.2) else p)

/-- `DELETE FROM tasks WHERE id = %s`. -/
def deleteRow (s : Store) (id : Nat) : Store :=
  s.filter (fun p => decide (p.1 ≠ id))

/-- The id `SERIAL` assigns to the next inserted row: one more than the
largest key in use. -/
def freshId (s : Store) : Nat := (keys s).foldr max 0 + 1

/-- The hydrated task (models.py `Task`): parent and children resolved
into task objects. -/
inductive Task : Type where
  | mk : Nat → String → Option String → Bool → Option Nat → Option Task → List Task → Task

def Task.id : Task → Nat
  | .mk i _ _ _ _ _ _ => i

def Task.title : Task → String
  | .mk _ t _ _ _ _ _ => t

def Task.description : Task → Option String
  | .mk _ _ d _ _ _ _ => d

def Task.status : Task → Bool
  | .mk _ _ _ b _ _ _ => b

def Task.updated : Task → Option Nat
  | .mk _ _ _ _ u _ _ => u

def Task.parent : Task → Option Task
  | .mk _ _ _ _ _ p _ => p

def Task.childs : Task → List Task
  | .mk _ _ _ _ _ _ c => c

/-- db_context.py `get_task` together with `_build_task`, with fuel: the
Python pair recurses with a visited set; a child or parent id already in
the visited set is skipped, a child id with no row is dropped, a parent
id of 0 is falsy in Python and is treated as no parent. -/
def get_taskF (s : Store) : Nat → Nat → List Nat → Option Task
  | 0, _, _ => none
  | fuel + 1, id, visited =>
    if id ∈ visited then none
    else
      match findRow s id with
      | none => none
      | some row =>
        some (Task.mk id row.title row.description row.status row.updated
          (match row.parent with
            | none => none
            | some p =>
              if p ≠ 0 ∧ p ∉ id :: visited then get_taskF s fuel p (id :: visited) else none)
          (row.childs.filterMap (fun c =>
            if c ∈ id :: visited then none else get_taskF s fuel c (id :: visited))))

/-- `_build_task` on a fetched row: the body of the `some` branch of
`get_taskF` at one fuel lower. -/
def build_taskF (s : Store) (fuel : Nat) (id : Nat) (row : Row) (visited : List Nat) : Task :=
  Task.mk id row.title row.description row.status row.updated
    (match row.parent with
      | none => none
      | some p =>
        if p ≠ 0 ∧ p ∉ id :: visited then get_taskF s fuel p (id :: visited) else none)
    (row.childs.filterMap (fun c =>
      if c ∈ id :: visited then none else get_taskF s fuel c (id :: visited)))

/-- `get_task` at the fuel that always suffices (one more than the number
of rows): each recursion level adds a distinct stored id to the visited
set, so the recursion depth is bounded by the number of rows. -/
def getTask (s : Store) (id : Nat) : Option Task :=
  get_taskF s (s.length + 1) id []

/-- db_context.py `_get_parent_id`: the parent column of the row, `none`
when the row is missing or the column is NULL. -/
def get_parent_id (s : Store) (id : Nat) : Option Nat :=
  (findRow s id).bind Row.parent

/-- db_context.py `_is_ancestor`, the while loop with fuel: walk the
parent chain of `current`, answering true on a revisited id (a stored
cycle) or on reaching `anc`. -/
def is_ancestorF (s : Store) (anc : Nat) : Nat → Nat → List Nat → Bool
  | 0, _, _ => false
  | fuel + 1, current, seen =>
    if current ∈ seen then true
    else if current = anc then true
    else
      match get_parent_id s current with
      | none => false
      | some p => is_ancestorF s anc fuel p (current :: seen)

/-- db_context.py `_is_ancestor`: `length + 2` fuel always suffices, since
every loop iteration that continues adds a distinct stored id to `seen`. -/
def is_ancestor (s : Store) (anc : Nat) (desc : Option Nat) : Bool :=
  match desc with
  | none => false
  | some d => is_ancestorF s anc (s.length + 2) d []

/-- The walk of `_is_ancestor` stripped of the target: does following the
parent chain from `current` revisit an id? -/
def chainWalkF (s : Store) : Nat → Nat → List Nat → Bool
  | 0, _, _ => false
  | fuel + 1, current, seen =>
    if current ∈ seen then true
    else
      match get_parent_id s current with
      | none => false
      | some p => chainWalkF s fuel p (current :: seen)

/-- Whether the stored parent chain starting at `a` contains a repeat. -/
def chainRepeat (s : Store) (a : Nat) : Bool :=
  chainWalkF s (s.length + 2) a []

/-- db_context.py `_update_childs`: validate that no candidate child is
the task itself or an ancestor of it (raising ValueError, here `none`);
then write the new childs array, set `parent` on each new child, and
clear `parent` on every previous child absent from the new list. -/
def update_childs (s : Store) (task_id : Nat) (childs : List Nat) : Option Store :=
  if childs.any (fun c => decide (c = task_id) || is_ancestor s c (some task_id)) then none
  else
    let prev : List Nat :=
      match findRow s task_id with
      | some row => row.childs
      | none => []
    let s1 := mapRow s task_id (fun r => { r with childs := childs })
    let s2 := childs.foldl (fun acc c => mapRow acc c (fun r => { r with parent := some task_id })) s1
    let s3 := (prev.filter (fun c => decide (c ∉ childs))).foldl
      (fun acc c => mapRow acc c (fun r => { r with parent := none })) s2
    some s3

/-- db_context.py `update_task`, by fields: returns the pair of the new
store and the rebuilt task, or `none` (store unchanged) when the id is 0
(falsy in Python) or no row matches. -/
def update_task (s : Store) (tid : Nat) (title : String) (descr : Option String)
    (st : Bool) (now : Nat) (parentId : Option Nat) (childsIds : List Nat) :
    Store × Option Task :=
  if tid = 0 then (s, none)
  else
    match findRow s tid with
    | none => (s, none)
    | some _ =>
      let row : Row := ⟨title, descr, st, some now, parentId, childsIds⟩
      let s1 := mapRow s tid (fun _ => row)
      (s1, some (build_taskF s1 s1.length tid row []))

/-- db_context.py `insert_task`, by fields: append a fresh row, build the
created task, and when initial childs were requested run the child-list
rewrite, rolling the row back on its failure. -/
def insert_task (s : Store) (title : String) (descr : Option String) (st : Bool)
    (upd : Option Nat) (parentId : Option Nat) (childsIds : List Nat) :
    Store × Option Task :=
  let id := freshId s
  let row : Row := ⟨title, descr, st, upd, parentId, childsIds⟩
  let s1 := s ++ [(id, row)]
  let created := build_taskF s1 s1.length id row []
  if childsIds.isEmpty then (s1, some created)
  else
    match update_childs s1 id childsIds with
    | some s2 => (s2, some created)
    | none => (deleteRow s1 id, none)

/-- db_context.py `get_tasks`: the rows with NULL parent, each hydrated
by `_build_task` with a fresh visited set. -/
def db_get_tasks (s : Store) : List Task :=
  s.filterMap (fun p =>
    if p.2.parent = none then some (build_taskF s s.length p.1 p.2 []) else none)

/-- main.py `get_tasks`: fetch the parentless rows, collect the ids of
their direct hydrated children, and keep the fetched tasks whose id is
not among them. -/
def get_roots (s : Store) : List Task :=
  let tasks := db_get_tasks s
  let allChildIds := (db_get_tasks s).foldl (fun acc t => acc ++ t.childs.map Task.id) []
  tasks.filter (fun t => decide (t.id ∉ allChildIds))

/-- db_context.py `delete_task_recursive` with fuel, the list branch
handling the loop over the hydrated children: fetch, recursively delete
every hydrated child first, then delete the row.  `none` is fuel
exhaustion. -/
def deleteAux : Nat → Store → Sum Nat (List Nat) → Option Store
  | 0, _, _ => none
  | fuel + 1, s, Sum.inl id =>
    match getTask s id with
    | none => some s
    | some t =>
      match deleteAux fuel s (Sum.inr (t.childs.map Task.id)) with
      | none => none
      | some s2 => some (deleteRow s2 id)
  | _ + 1, s, Sum.inr [] => some s
  | fuel + 1, s, Sum.inr (c :: cs) =>
    match deleteAux fuel s (Sum.inl c) with
    | none => none
    | some s2 => deleteAux fuel s2 (Sum.inr cs)

def delete_task_recursiveF (s : Store) (fuel : Nat) (id : Nat) : Option Store :=
  deleteAux fuel s (Sum.inl id)

/-- db_context.py `_set_task_status_recursive` with fuel, the list branch
handling the loop over the re-fetched hydrated children: set the status,
re-fetch the row with a fresh visited set, recurse into each hydrated
child.  `none` is fuel exhaustion (or the unreachable fetch of a missing
id, AttributeError in Python). -/
def set_recAux : Nat → Store → Sum Nat (List Nat) → Bool → Option Store
  | 0, _, _, _ => none
  | fuel + 1, s, Sum.inl id, st =>
    let s1 := mapRow s id (fun r => { r with status := st })
    match getTask s1 id with
    | none => none
    | some t => set_recAux fuel s1 (Sum.inr (t.childs.map Task.id)) st
  | _ + 1, s, Sum.inr [], _ => some s
  | fuel + 1, s, Sum.inr (c :: cs), st =>
    match set_recAux fuel s (Sum.inl c) st with
    | none => none
    | some s2 => set_recAux fuel s2 (Sum.inr cs) st

/-- db_context.py `toggle_task`: fetch, flip the status, and when the new
status is true cascade it through the hydrated children of the snapshot
taken before the flip. -/
def toggleF (s : Store) (fuel : Nat) (id : Nat) : Option Store :=
  match getTask s id with
  | none => some s
  | some t =>
    let ns := !t.status
    let s1 := mapRow s id (fun r => { r with status := ns })
    if ns then set_recAux fuel s1 (Sum.inr (t.childs.map Task.id)) ns
    else some s1

/-- The outcomes the HTTP layer can produce: 404, 400, the uncaught
ValueError of the child-list rewrite, and the uncaught dynamic-typing
errors (TypeError / AttributeError) of main.py. -/
inductive Err : Type where
  | notFound
  | badRequest
  | valueError
  | typeError
deriving DecidableEq, Repr

/-- main.py `create_task`: resolve the parent when a truthy parent id is
given (404 when absent); every path then constructs
`Task(id=0, title=..., description=..., status=..., parent=..., childs=[])`,
which omits the required dataclass field `updated` of models.py and so
raises TypeError before any insertion. -/
def create_task (s : Store) (title : String) (descr : Option String) (st : Bool)
    (parent : Option Nat) : Except Err (Store × Task) :=
  match parent with
  | some p =>
    if p = 0 then Except.error Err.typeError
    else
      match getTask s p with
      | none => Except.error Err.notFound
      | some _ => Except.error Err.typeError
  | none => Except.error Err.typeError

/-- main.py `change_parent`, local `is_descendant` with fuel, the list
branch handling the `any` over the hydrated children: the target is a
descendant when it is a hydrated child of the current node or a
descendant of one; each level re-fetches with a fresh visited set. -/
def is_descAux : Nat → Store → Sum Nat (List Nat) → Nat → Option Bool
  | 0, _, _, _ => none
  | fuel + 1, s, Sum.inl did, target =>
    match getTask s did with
    | none => some false
    | some t =>
      let ids := t.childs.map Task.id
      if target ∈ ids then some true
      else is_descAux fuel s (Sum.inr ids) target
  | _ + 1, _, Sum.inr [], _ => some false
  | fuel + 1, s, Sum.inr (c :: cs), target =>
    match is_descAux fuel s (Sum.inl c) target with
    | none => none
    | some true => some true
    | some false => is_descAux fuel s (Sum.inr cs) target

def exceptIsOk : Except Err (Store × Task) → Bool
  | Except.ok _ => true
  | Except.error _ => false

/-- The closing writes of main.py `change_parent` when the new parent id
is falsy: `task.parent` was set to `None`/`0`, so `update_task` persists
a NULL parent together with the snapshot fields, and the handler returns
the re-fetched task (an unreachable missing re-fetch is a response
validation failure, embedded as `typeError`). -/
def change_parentFinish (s : Store) (id : Nat) (task : Task) (now : Nat) :
    Option (Except Err (Store × Task)) :=
  let res := update_task s id task.title task.description task.status now
    none (task.childs.map Task.id)
  match getTask res.1 id with
  | some t2 => some (Except.ok (res.1, t2))
  | none => some (Except.error Err.typeError)

/-- The new-parent block of main.py `change_parent` for a task with no
old parent: a truthy new parent id that resolves leads to
`_update_childs` on the new parent (its ValueError propagates uncaught)
and then, in `update_task`, to `task.parent.id` on a raw int, an
AttributeError embedded as `typeError`; an absent new parent skips the
block and still hits the same AttributeError. -/
def change_parentNewParent (s : Store) (id : Nat) (task : Task) (p : Nat) (now : Nat) :
    Option (Except Err (Store × Task)) :=
  if p ≠ 0 then
    match getTask s p with
    | some pt =>
      match update_childs s p (pt.childs.map Task.id ++ [task.id]) with
      | none => some (Except.error Err.valueError)
      | some _ => some (Except.error Err.typeError)
    | none => some (Except.error Err.typeError)
  else change_parentFinish s id task now

/-- The tail of main.py `change_parent` after validation.  The old-parent
block runs first: `old_parent_id` holds `task.parent`, which is a
hydrated `Task` object, not an id; passing it to `get_task` raises
TypeError (an unhashable/unadaptable Task used as an id), embedded as
`typeError` whenever an old parent exists. -/
def change_parentRest (s : Store) (id : Nat) (task : Task) (pid : Option Nat) (now : Nat) :
    Option (Except Err (Store × Task)) :=
  match task.parent with
  | some _ => some (Except.error Err.typeError)
  | none =>
    match pid with
    | some p => change_parentNewParent s id task p now
    | none => change_parentFinish s id task now

/-- main.py `change_parent`: resolve the task (404), reject a self
parent or a descendant as parent (400, via the fueled subtree search),
then run the rest of the handler.  The outer `none` is fuel exhaustion
of the subtree search. -/
def change_parentF (s : Store) (fuel : Nat) (id : Nat) (pid : Option Nat) (now : Nat) :
    Option (Except Err (Store × Task)) :=
  match getTask s id with
  | none => some (Except.error Err.notFound)
  | some task =>
    match pid with
    | some p =>
      if p = task.id then some (Except.error Err.badRequest)
      else
        match is_descAux fuel s (Sum.inl id) p with
        | none => none
        | some true => some (Except.error Err.badRequest)
        | some false => change_parentRest s id task pid now
    | none => change_parentRest s id task pid now

/-! Derived notions used to state the claims. -/

/-- The status column of a row. -/
def statusOf (s : Store) (id : Nat) : Option Bool := (findRow s id).map Row.status

/-- The childs column of a row (empty when the row is missing), as read
by `_update_childs` before rewriting. -/
def prevChilds (s : Store) (A : Nat) : List Nat :=
  match findRow s A with
  | some row => row.childs
  | none => []

/-- Set a row's status to true / false. -/
def setT (r : Row) : Row := { r with status := true }

def setF (r : Row) : Row := { r with status := false }

/-- The ids the recursive cascade steps to from `id`: the stored childs
of `id` that are distinct from `id` and have a row (exactly the ids of
the top-level hydrated children of `get_task id`). -/
def stepIds (s : Store) (id : Nat) : List Nat :=
  match findRow s id with
  | none => []
  | some row =>
    row.childs.filterMap (fun c =>
      if c = id then none else if (findRow s c).isSome then some c else none)

/-- Reachability along `stepIds`: the ids the downward cascade from `a`
touches. -/
inductive Desc (s : Store) : Nat → Nat → Prop where
  | refl (a : Nat) : Desc s a a
  | head {a c j : Nat} : c ∈ stepIds s a → Desc s c j → Desc s a j

/-- Reachability along stored parent links (reflexive): `ParentPath s a c`
holds when following `parent` pointers from `a` can reach `c`. -/
inductive ParentPath (s : Store) : Nat → Nat → Prop where
  | refl (a : Nat) : ParentPath s a a
  | step {a p c : Nat} : get_parent_id s a = some p → ParentPath s p c → ParentPath s a c

/-- What the cascade argument of `set_recAux` reaches: from `Sum.inl a`
everything `Desc`-reachable from `a`; from `Sum.inr cs` everything
reachable from a member of `cs`. -/
def DescX (s : Store) : Sum Nat (List Nat) → Nat → Prop
  | Sum.inl a, j => Desc s a j
  | Sum.inr cs, j => ∃ c ∈ cs, Desc s c j

/-- Invariant I1 of the spec, on rows: a stored task `b` is listed in the
childs of a stored task `a` exactly when the parent of `b` is `a`. -/
def I1P (s : Store) : Prop :=
  ∀ a ra b rb, findRow s a = some ra → findRow s b = some rb →
    (b ∈ ra.childs ↔ rb.parent = some a)

/-- Decidable form of I1 over the row list. -/
def I1b (s : Store) : Bool :=
  s.all (fun pa => s.all (fun pb =>
    decide (pb.1 ∈ pa.2.childs) == decide (pb.2.parent = some pa.1)))

/-- Well-formedness every store reachable through the SQL layer has:
keys are unique (primary key) and positive (SERIAL starts at 1). -/
def wfB (s : Store) : Bool :=
  decide (keys s).Nodup && (keys s).all (fun k => decide (k ≠ 0))

/-- Every non-null parent reference resolves to a stored row. -/
def parentsExistB (s : Store) : Bool :=
  s.all (fun p =>
    match p.2.parent with
    | none => true
    | some q => (findRow s q).isSome)

/-- Every id in a childs list resolves to a stored row. -/
def childsExistB (s : Store) : Bool :=
  s.all (fun p => p.2.childs.all (fun c => (findRow s c).isSome))

/-- No row lists itself among its childs. -/
def noSelfChildB (s : Store) : Bool :=
  s.all (fun p => decide (p.1 ∉ p.2.childs))

/-- Two stores with the same structure (same rows up to status and
metadata): the fields traversal depends on. -/
def StructEq (s s2 : Store) : Prop :=
  ∀ j, (findRow s j).map (fun r => (r.parent, r.childs)) =
    (findRow s2 j).map (fun r => (r.parent, r.childs))

/-- `r` keeps a subset of the rows of `s`, unchanged. -/
def Restriction (r s : Store) : Prop :=
  ∀ j, findRow r j = findRow s j ∨ findRow r j = none

/-- The number of distinct stored ids outside `visited`: the measure the
visited-set recursions decrease. -/
def freeCard (s : Store) (visited : List Nat) : Nat :=
  ((keys s).dedup.filter (fun k => decide (k ∉ visited))).length

/-- The fueled recursive delete terminates on `s` from `id`. -/
def deleteTerminates (s : Store) (id : Nat) : Prop :=
  ∃ fuel, (delete_task_recursiveF s fuel id).isSome = true

/-- The fueled toggle terminates on `s` at `id`. -/
def toggleTerminates (s : Store) (id : Nat) : Prop :=
  ∃ fuel, (toggleF s fuel id).isSome = true

/-! Concrete stores used in counterexamples and witnesses. -/

/-- Two rows whose childs lists form a cycle: 1 lists 2, 2 lists 1. -/
def sCyc : Store :=
  [(1, ⟨"a", none, false, none, none, [2]⟩), (2, ⟨"b", none, false, none, none, [1]⟩)]

/-- The cycle store after the cascade has set task 1, then both, to true. -/
def sCycA : Store :=
  [(1, ⟨"a", none, true, none, none, [2]⟩), (2, ⟨"b", none, false, none, none, [1]⟩)]

def sCycAB : Store :=
  [(1, ⟨"a", none, true, none, none, [2]⟩), (2, ⟨"b", none, true, none, none, [1]⟩)]

/-- Two rows whose parent links form a cycle. -/
def sPP : Store :=
  [(1, ⟨"a", none, false, none, some 2, []⟩), (2, ⟨"b", none, false, none, some 1, []⟩)]

/-- A single row whose parent link points at itself. -/
def sSelfP : Store := [(1, ⟨"a", none, false, none, some 1, []⟩)]

/-- A consistent store: 1 is the parent of 2, and 3 is isolated. -/
def sW : Store :=
  [(1, ⟨"o", none, false, none, none, [2]⟩),
   (2, ⟨"c", none, false, none, some 1, []⟩),
   (3, ⟨"a", none, false, none, none, []⟩)]

/-- `sW` after `update_childs 3 [2]` has stolen 2 from 1: 1 still lists
2, but the parent of 2 is now 3. -/
def sWstolen : Store :=
  [(1, ⟨"o", none, false, none, none, [2]⟩),
   (2, ⟨"c", none, false, none, some 3, []⟩),
   (3, ⟨"a", none, false, none, none, [2]⟩)]

/-- A single row whose parent points at a missing id. -/
def sDangling : Store := [(1, ⟨"x", none, false, none, some 5, []⟩)]

/-- `sW` after toggling task 1: the cascade set task 2 as well. -/
def sWT : Store :=
  [(1, ⟨"o", none, true, none, none, [2]⟩),
   (2, ⟨"c", none, true, none, some 1, []⟩),
   (3, ⟨"a", none, false, none, none, []⟩)]

/-- A one-row store. -/
def sOne : Store := [(1, ⟨"t", none, false, none, none, []⟩)]

/-- `sOne` after toggling task 1. -/
def sOneT : Store := [(1, ⟨"t", none, true, none, none, []⟩)]

/-! ### Basic lemmas about the store primitives -/

theorem get_taskF_succ (s : Store) (fuel id : Nat) (visited : List Nat) :
    get_taskF s (fuel + 1) id visited =
      if id ∈ visited then none
      else
        match findRow s id with
        | none => none
        | some row => some (build_taskF s fuel id row visited) := rfl

theorem findRow_cons (k : Nat) (r : Row) (rest : Store) (id : Nat) :
    findRow ((k, r) :: rest) id = if k = id then some r else findRow rest id := rfl

theorem mapRow_cons (k : Nat) (r : Row) (rest : Store) (i : Nat) (f : Row → Row) :
    mapRow ((k, r) :: rest) i f =
      (if k = i then (k, f r) else (k, r)) :: mapRow rest i f := by
  by_cases hk : k = i <;> simp [mapRow, hk]

theorem deleteRow_cons (k : Nat) (r : Row) (rest : Store) (i : Nat) :
    deleteRow ((k, r) :: rest) i =
      if k = i then deleteRow rest i else (k, r) :: deleteRow rest i := by
  by_cases hk : k = i <;> simp [deleteRow, List.filter_cons, hk]

theorem findRow_mapRow (s : Store) (i : Nat) (f : Row → Row) (j : Nat) :
    findRow (mapRow s i f) j =
      if j = i then (findRow s j).map f else findRow s j := by
  induction s with
  | nil => by_cases h : j = i <;> simp [mapRow, findRow, h]
  | cons p rest ih =>
    obtain ⟨k, r⟩ := p
    rw [mapRow_cons]
    by_cases hk : k = i
    · rw [if_pos hk, findRow_cons, findRow_cons]
      by_cases hj : k = j
      · subst hj
        rw [if_pos rfl, if_pos rfl, if_pos hk]
        rfl
      · rw [if_neg hj, if_neg hj, ih]
    · rw [if_neg hk, findRow_cons, findRow_cons]
      by_cases hj : k = j
      · subst hj
        have hji : ¬ k = i := hk
        rw [if_pos rfl, if_neg hji]
        rw [if_pos rfl]
      · rw [if_neg hj, if_neg hj, ih]

theorem keys_mapRow (s : Store) (i : Nat) (f : Row → Row) :
    keys (mapRow s i f) = keys s := by
  induction s with
  | nil => rfl
  | cons p rest ih =>
    obtain ⟨k, r⟩ := p
    rw [mapRow_cons]
    have h2 := ih
    simp only [keys] at h2
    by_cases hk : k = i
    · rw [if_pos hk]
      simp only [keys, List.map_cons]
      rw [h2]
    · rw [if_neg hk]
      simp only [keys, List.map_cons]
      rw [h2]

theorem findRow_deleteRow (s : Store) (i j : Nat) :
    findRow (deleteRow s i) j = if j = i then none else findRow s j := by
  induction s with
  | nil => by_cases h : j = i <;> simp [deleteRow, findRow, h]
  | cons p rest ih =>
    obtain ⟨k, r⟩ := p
    rw [deleteRow_cons]
    by_cases hk : k = i
    · rw [if_pos hk, ih, findRow_cons]
      by_cases hj : j = i
      · rw [if_pos hj, if_pos hj]
      · rw [if_neg hj, if_neg hj]
        have : ¬ k = j := fun h => hj (by rw [← h]; exact hk)
        rw [if_neg this]
    · rw [if_neg hk, findRow_cons, findRow_cons]
      by_cases hj : k = j
      · have hji : ¬ j = i := fun h => hk (by rw [hj]; exact h)
        rw [if_pos hj, if_neg hji, if_pos hj]
      · rw [if_neg hj, if_neg hj, ih]

theorem keys_deleteRow_sublist (s : Store) (i : Nat) :
    (keys (deleteRow s i)).Sublist (keys s) := by
  induction s with
  | nil => simp [deleteRow, keys]
  | cons p rest ih =>
    obtain ⟨k, r⟩ := p
    rw [deleteRow_cons]
    by_cases hk : k = i
    · rw [if_pos hk]
      exact List.Sublist.cons _ ih
    · rw [if_neg hk]
      simp only [keys, List.map_cons]
      exact List.Sublist.cons₂ _ ih

theorem findRow_append_single (s : Store) (i : Nat) (r : Row) (j : Nat) :
    findRow (s ++ [(i, r)]) j =
      match findRow s j with
      | some x => some x
      | none => if i = j then some r else none := by
  induction s with
  | nil => simp [findRow]
  | cons p rest ih =>
    obtain ⟨k, x⟩ := p
    by_cases hj : k = j
    · simp [findRow, hj]
    · simp only [List.cons_append, findRow, if_neg hj]
      exact ih

theorem findRow_mem_keys {s : Store} {id : Nat} {r : Row}
    (h : findRow s id = some r) : id ∈ keys s := by
  induction s with
  | nil => simp [findRow] at h
  | cons p rest ih =>
    rw [findRow] at h
    by_cases hk : p.1 = id
    · simp [keys, hk]
    · rw [if_neg hk] at h
      simp [keys] at ih ⊢
      right
      simpa [keys] using ih h

theorem findRow_isSome_of_mem {s : Store} {id : Nat}
    (h : id ∈ keys s) : (findRow s id).isSome = true := by
  induction s with
  | nil => simp [keys] at h
  | cons p rest ih =>
    rw [findRow]
    by_cases hk : p.1 = id
    · simp [hk]
    · rw [if_neg hk]
      simp only [keys, List.map_cons, List.mem_cons] at h
      rcases h with h | h

      · exact absurd h.symm hk
      · exact ih h

theorem mem_of_findRow {s : Store} {id : Nat} {r : Row}
    (h : findRow s id = some r) : (id, r) ∈ s := by
  induction s with
  | nil => simp [findRow] at h
  | cons p rest ih =>
    rw [findRow] at h
    by_cases hk : p.1 = id
    · rw [if_pos hk] at h
      obtain ⟨k, x⟩ := p
      cases h
      simp at hk
      subst hk
      simp
    · rw [if_neg hk] at h
      exact List.mem_cons_of_mem _ (ih h)

theorem findRow_of_mem {s : Store} (hn : (keys s).Nodup) {id : Nat} {r : Row}
    (h : (id, r) ∈ s) : findRow s id = some r := by
  induction s with
  | nil => simp at h
  | cons p rest ih =>
    simp only [List.mem_cons] at h
    simp only [keys, List.map_cons, List.nodup_cons] at hn
    rcases h with h | h
    · subst h
      simp [findRow]
    · rw [findRow]
      by_cases hk : p.1 = id
      · exfalso
        apply hn.1
        rw [hk]
        exact List.mem_map_of_mem Prod.fst h
      · rw [if_neg hk]
        exact ih hn.2 h

theorem le_foldr_max (l : List Nat) : ∀ k ∈ l, k ≤ l.foldr max 0 := by
  induction l with
  | nil =>
    intro k hk
    simp at hk
  | cons x xs ih =>
    intro k hk
    simp only [List.mem_cons] at hk
    simp only [List.foldr_cons]
    rcases hk with h | h
    · subst h
      exact le_max_left _ _
    · exact le_trans (ih k h) (le_max_right _ _)

theorem freshId_not_mem (s : Store) : freshId s ∉ keys s := by
  intro hmem
  have h1 := le_foldr_max (keys s) _ hmem
  simp only [freshId] at h1
  omega

/-! ### List helpers -/

theorem listFilterMapCongr {α β : Type} {f g : α → Option β} :
    ∀ {l : List α}, (∀ a ∈ l, f a = g a) → l.filterMap f = l.filterMap g := by
  intro l
  induction l with
  | nil => intro _; rfl
  | cons x xs ih =>
    intro h
    rw [List.filterMap_cons, List.filterMap_cons, h x (List.mem_cons_self x xs),
      ih (fun a ha => h a (List.mem_cons_of_mem x ha))]

theorem listMapFilterMap {α β γ : Type} (f : α → Option β) (g : β → γ) (l : List α) :
    (l.filterMap f).map g = l.filterMap (fun a => (f a).map g) := by
  induction l with
  | nil => rfl
  | cons x xs ih =>
    rw [List.filterMap_cons, List.filterMap_cons]
    cases f x with
    | none => simpa using ih
    | some b => simpa using ih

theorem listFilterCongr {α : Type} {p q : α → Bool} :
    ∀ {l : List α}, (∀ a ∈ l, p a = q a) → l.filter p = l.filter q := by
  intro l
  induction l with
  | nil => intro _; rfl
  | cons x xs ih =>
    intro h
    rw [List.filter_cons, List.filter_cons, h x (List.mem_cons_self x xs),
      ih (fun a ha => h a (List.mem_cons_of_mem x ha))]

/-! ### Fuel stability of the hydration traversal -/

theorem filter_not_mem_cons_length {id : Nat} {visited : List Nat} (hv : id ∉ visited) :
    ∀ {l : List Nat}, l.Nodup → id ∈ l →
      (l.filter (fun k => decide (k ∉ id :: visited))).length + 1 =
        (l.filter (fun k => decide (k ∉ visited))).length := by
  intro l
  induction l with
  | nil =>
    intro _ hi
    simp at hi
  | cons x xs ih =>
    intro hn hi
    rw [List.nodup_cons] at hn
    rw [List.filter_cons, List.filter_cons]
    by_cases hx : x = id
    · subst hx
      have h1 : decide (x ∉ x :: visited) = false := by simp
      have h2 : decide (x ∉ visited) = true := by simpa using hv
      rw [h1, h2]
      simp only [Bool.false_eq_true, ite_false, ite_true, List.length_cons]
      have hcong : xs.filter (fun k => decide (k ∉ x :: visited)) =
          xs.filter (fun k => decide (k ∉ visited)) := by
        apply listFilterCongr
        intro a ha
        have hax : a ≠ x := fun h => hn.1 (h ▸ ha)
        simp [List.mem_cons, hax]
      rw [hcong]
    · have hixs : id ∈ xs := by
        rcases List.mem_cons.mp hi with h | h
        · exact absurd h.symm hx
        · exact h
      have heq : decide (x ∉ id :: visited) = decide (x ∉ visited) := by
        by_cases hxv : x ∈ visited
        · simp [List.mem_cons, hxv]
        · simp [List.mem_cons, hxv, hx]
      rw [heq]
      cases hxv : decide (x ∉ visited) with
      | false =>
        simp only [Bool.false_eq_true, ite_false]
        exact ih hn.2 hixs
      | true =>
        simp only [ite_true, List.length_cons]
        have := ih hn.2 hixs
        omega

theorem freeCard_cons {s : Store} {id : Nat} {row : Row} {visited : List Nat}
    (h : findRow s id = some row) (hv : id ∉ visited) :
    freeCard s (id :: visited) + 1 = freeCard s visited := by
  have hmem : id ∈ (keys s).dedup := List.mem_dedup.mpr (findRow_mem_keys h)
  exact filter_not_mem_cons_length hv (List.nodup_dedup _) hmem

theorem freeCard_le (s : Store) (visited : List Nat) : freeCard s visited ≤ s.length := by
  have h1 : (((keys s).dedup.filter (fun k => decide (k ∉ visited)))).Sublist (keys s) :=
    List.Sublist.trans (List.filter_sublist _) (List.dedup_sublist _)
  have h2 := h1.length_le
  simpa [freeCard, keys] using h2

theorem get_taskF_stable (s : Store) :
    ∀ n m id visited, freeCard s visited < n → freeCard s visited < m →
      get_taskF s n id visited = get_taskF s m id visited := by
  intro n
  induction n with
  | zero =>
    intro m id visited hn _
    exact absurd hn (Nat.not_lt_zero _)
  | succ n ih =>
    intro m id visited hn hm
    cases m with
    | zero => exact absurd hm (Nat.not_lt_zero _)
    | succ m =>
      rw [get_taskF_succ, get_taskF_succ]
      by_cases hv : id ∈ visited
      · rw [if_pos hv, if_pos hv]
      · rw [if_neg hv, if_neg hv]
        cases hrow : findRow s id with
        | none => rfl
        | some row =>
          have hdec : freeCard s (id :: visited) + 1 = freeCard s visited :=
            freeCard_cons hrow hv
          have hn2 : freeCard s (id :: visited) < n := by omega
          have hm2 : freeCard s (id :: visited) < m := by omega
          have hpar :
              (match row.parent with
                | none => none
                | some p =>
                  if p ≠ 0 ∧ p ∉ id :: visited then get_taskF s n p (id :: visited)
                  else none) =
              (match row.parent with
                | none => none
                | some p =>
                  if p ≠ 0 ∧ p ∉ id :: visited then get_taskF s m p (id :: visited)
                  else none) := by
            cases row.parent with
            | none => rfl
            | some p =>
              show (if p ≠ 0 ∧ p ∉ id :: visited then get_taskF s n p (id :: visited)
                  else none) =
                (if p ≠ 0 ∧ p ∉ id :: visited then get_taskF s m p (id :: visited)
                  else none)
              by_cases hc : p ≠ 0 ∧ p ∉ id :: visited
              · rw [if_pos hc, if_pos hc, ih m p (id :: visited) hn2 hm2]
              · rw [if_neg hc, if_neg hc]
          have hch :
              row.childs.filterMap (fun c =>
                if c ∈ id :: visited then none else get_taskF s n c (id :: visited)) =
              row.childs.filterMap (fun c =>
                if c ∈ id :: visited then none else get_taskF s m c (id :: visited)) := by
            apply listFilterMapCongr
            intro c _
            by_cases hc : c ∈ id :: visited
            · rw [if_pos hc, if_pos hc]
            · rw [if_neg hc, if_neg hc, ih m c (id :: visited) hn2 hm2]
          simp only [build_taskF, hpar, hch]

/-- The public `getTask` is the limit of the fueled traversal: any fuel
beyond `length + 1` computes the same answer. -/
theorem getTask_eq_of_le (s : Store) (fuel id : Nat) (visited : List Nat)
    (h : s.length + 1 ≤ fuel) :
    get_taskF s fuel id visited = get_taskF s (s.length + 1) id visited := by
  apply get_taskF_stable
  · exact lt_of_le_of_lt (freeCard_le s visited) (by omega)
  · exact lt_of_le_of_lt (freeCard_le s visited) (by omega)

/-! ### What a hydrated task looks like -/

theorem getTask_inv {s : Store} {id : Nat} {t : Task} (h : getTask s id = some t) :
    ∃ row, findRow s id = some row ∧ t = build_taskF s s.length id row [] := by
  rw [getTask, get_taskF_succ, if_neg (List.not_mem_nil id)] at h
  cases hrow : findRow s id with
  | none =>
    rw [hrow] at h
    cases h
  | some row =>
    rw [hrow] at h
    exact ⟨row, rfl, (Option.some_inj.mp h).symm⟩

theorem getTask_none_iff {s : Store} {id : Nat} :
    getTask s id = none ↔ findRow s id = none := by
  rw [getTask, get_taskF_succ, if_neg (List.not_mem_nil id)]
  cases hrow : findRow s id <;> simp

theorem getTask_of_findRow {s : Store} {id : Nat} {row : Row}
    (h : findRow s id = some row) :
    getTask s id = some (build_taskF s s.length id row []) := by
  rw [getTask, get_taskF_succ, if_neg (List.not_mem_nil id), h]

theorem build_taskF_id (s : Store) (fuel id : Nat) (row : Row) (visited : List Nat) :
    (build_taskF s fuel id row visited).id = id := rfl

theorem build_taskF_status (s : Store) (fuel id : Nat) (row : Row) (visited : List Nat) :
    (build_taskF s fuel id row visited).status = row.status := rfl

theorem length_pos_of_findRow {s : Store} {id : Nat} {row : Row}
    (h : findRow s id = some row) : 1 ≤ s.length := by
  cases s with
  | nil => cases h
  | cons p rest => simp

theorem build_taskF_childs_ids {s : Store} {id fuel : Nat} {row : Row}
    (hrow : findRow s id = some row) (hfuel : 1 ≤ fuel) :
    (build_taskF s fuel id row []).childs.map Task.id = stepIds s id := by
  obtain ⟨k, rfl⟩ : ∃ k, fuel = k + 1 := ⟨fuel - 1, by omega⟩
  show (row.childs.filterMap (fun c =>
      if c ∈ id :: [] then none else get_taskF s (k + 1) c (id :: []))).map Task.id =
    stepIds s id
  rw [listMapFilterMap, stepIds, hrow]
  apply listFilterMapCongr
  intro c _
  by_cases hc : c = id
  · rw [if_pos (by simp [hc]), if_pos hc]
    rfl
  · rw [if_neg (by simp [hc]), if_neg hc]
    cases hfr : findRow s c with
    | none =>
      rw [get_taskF_succ, if_neg (by simp [hc]), hfr]
      simp
    | some rc =>
      rw [get_taskF_succ, if_neg (by simp [hc]), hfr]
      simp [build_taskF_id]

theorem getTask_spec {s : Store} {id : Nat} {t : Task} (h : getTask s id = some t) :
    t.id = id ∧ t.childs.map Task.id = stepIds s id ∧ statusOf s id = some t.status := by
  obtain ⟨row, hrow, rfl⟩ := getTask_inv h
  refine ⟨rfl, ?_, ?_⟩
  · exact build_taskF_childs_ids hrow (length_pos_of_findRow hrow)
  · rw [statusOf, hrow]
    rfl

/-! ### Structure-only store equivalence and cascade reachability -/

theorem desc_iff (s : Store) (a j : Nat) :
    Desc s a j ↔ j = a ∨ ∃ c ∈ stepIds s a, Desc s c j := by
  constructor
  · intro h
    cases h with
    | refl => exact Or.inl rfl
    | head hc hd => exact Or.inr ⟨_, hc, hd⟩
  · intro h
    rcases h with rfl | ⟨c, hc, hd⟩
    · exact Desc.refl _
    · exact Desc.head hc hd

theorem isSome_eq_of_structEq {s s2 : Store} (h : StructEq s s2) (c : Nat) :
    (findRow s c).isSome = (findRow s2 c).isSome := by
  have hc2 := h c
  cases h3 : findRow s c <;> cases h4 : findRow s2 c <;> rw [h3, h4] at hc2 <;> simp_all

theorem stepIds_eq_of_structEq {s s2 : Store} (h : StructEq s s2) (id : Nat) :
    stepIds s id = stepIds s2 id := by
  have h0 := h id
  rw [stepIds, stepIds]
  cases h1 : findRow s id with
  | none =>
    cases h2 : findRow s2 id with
    | none => rfl
    | some r2 =>
      rw [h1, h2] at h0
      simp at h0
  | some r1 =>
    cases h2 : findRow s2 id with
    | none =>
      rw [h1, h2] at h0
      simp at h0
    | some r2 =>
      rw [h1, h2] at h0
      simp only [Option.map_some'] at h0
      have hpc := Option.some_inj.mp h0
      have hch : r1.childs = r2.childs := congrArg Prod.snd hpc
      show r1.childs.filterMap (fun c =>
          if c = id then none else if (findRow s c).isSome then some c else none) =
        r2.childs.filterMap (fun c =>
          if c = id then none else if (findRow s2 c).isSome then some c else none)
      rw [hch]
      apply listFilterMapCongr
      intro c _
      by_cases hc : c = id
      · rw [if_pos hc, if_pos hc]
      · rw [if_neg hc, if_neg hc, isSome_eq_of_structEq h c]

theorem structEq_symm {s s2 : Store} (h : StructEq s s2) : StructEq s2 s :=
  fun j => (h j).symm

theorem desc_of_structEq {s s2 : Store} (h : StructEq s s2) {a j : Nat} :
    Desc s a j → Desc s2 a j := by
  intro hd
  induction hd with
  | refl => exact Desc.refl _
  | head hc _ ih =>
    exact Desc.head (stepIds_eq_of_structEq h _ ▸ hc) ih

theorem structEq_mapRow_status (s : Store) (id : Nat) (b : Bool) :
    StructEq (mapRow s id (fun r => { r with status := b })) s := by
  intro j
  rw [findRow_mapRow]
  by_cases hj : j = id
  · rw [if_pos hj]
    cases findRow s j <;> rfl
  · rw [if_neg hj]

theorem i1_of_structEq {r s : Store} (h : StructEq r s) (hi : I1P s) : I1P r := by
  intro a ra b rb hra hrb
  have ha := h a
  have hb := h b
  rw [hra] at ha
  rw [hrb] at hb
  cases hsa : findRow s a with
  | none =>
    rw [hsa] at ha
    cases ha
  | some sa =>
    cases hsb : findRow s b with
    | none =>
      rw [hsb] at hb
      cases hb
    | some sb =>
      rw [hsa] at ha
      rw [hsb] at hb
      have ea := Option.some_inj.mp ha
      have eb := Option.some_inj.mp hb
      have e1 : ra.childs = sa.childs := congrArg Prod.snd ea
      have e2 : rb.parent = sb.parent := congrArg Prod.fst eb
      rw [e1, e2]
      exact hi a sa b sb hsa hsb

theorem i1_of_restriction {r s : Store} (h : Restriction r s) (hi : I1P s) : I1P r := by
  intro a ra b rb hra hrb
  rcases h a with ha | ha
  · rcases h b with hb | hb
    · exact hi a ra b rb (ha ▸ hra) (hb ▸ hrb)
    · rw [hb] at hrb
      cases hrb
  · rw [ha] at hra
    cases hra

/-! ### The status cascade: unfolding equations and characterization -/

theorem set_recAux_zero (s : Store) (x : Sum Nat (List Nat)) (st : Bool) :
    set_recAux 0 s x st = none := rfl

theorem set_recAux_inl (fuel : Nat) (s : Store) (id : Nat) (st : Bool) :
    set_recAux (fuel + 1) s (Sum.inl id) st =
      match getTask (mapRow s id (fun r => { r with status := st })) id with
      | none => none
      | some t => set_recAux fuel (mapRow s id (fun r => { r with status := st }))
          (Sum.inr (t.childs.map Task.id)) st := rfl

theorem set_recAux_nil (fuel : Nat) (s : Store) (st : Bool) :
    set_recAux (fuel + 1) s (Sum.inr []) st = some s := rfl

theorem set_recAux_cons (fuel : Nat) (s : Store) (c : Nat) (cs : List Nat) (st : Bool) :
    set_recAux (fuel + 1) s (Sum.inr (c :: cs)) st =
      match set_recAux fuel s (Sum.inl c) st with
      | none => none
      | some s2 => set_recAux fuel s2 (Sum.inr cs) st := rfl

theorem set_recAux_keys :
    ∀ fuel (s : Store) x st r, set_recAux fuel s x st = some r → keys r = keys s := by
  intro fuel
  induction fuel with
  | zero =>
    intro s x st r h
    rw [set_recAux_zero] at h
    cases h
  | succ fuel ih =>
    intro s x st r h
    match x with
    | Sum.inl id =>
      rw [set_recAux_inl] at h
      cases hg : getTask (mapRow s id (fun r0 => { r0 with status := st })) id with
      | none =>
        rw [hg] at h
        cases h
      | some t =>
        rw [hg] at h
        rw [ih _ _ _ _ h, keys_mapRow]
    | Sum.inr [] =>
      rw [set_recAux_nil] at h
      have hr : s = r := Option.some_inj.mp h
      rw [hr]
    | Sum.inr (c :: cs) =>
      rw [set_recAux_cons] at h
      cases h1 : set_recAux fuel s (Sum.inl c) st with
      | none =>
        rw [h1] at h
        cases h
      | some s2 =>
        rw [h1] at h
        rw [ih _ _ _ _ h, ih _ _ _ _ h1]

theorem set_recAux_char :
    ∀ fuel (s : Store) x r, set_recAux fuel s x true = some r →
      ∀ j, (DescX s x j → findRow r j = (findRow s j).map setT) ∧
        (¬ DescX s x j → findRow r j = findRow s j) := by
  intro fuel
  induction fuel with
  | zero =>
    intro s x r h
    rw [set_recAux_zero] at h
    cases h
  | succ fuel ih =>
    intro s x r h j
    match x with
    | Sum.inl id =>
      rw [set_recAux_inl] at h
      cases hg : getTask (mapRow s id (fun r0 => { r0 with status := true })) id with
      | none =>
        rw [hg] at h
        cases h
      | some t =>
        rw [hg] at h
        have hstruct : StructEq (mapRow s id (fun r0 => { r0 with status := true })) s :=
          structEq_mapRow_status s id true
        have htops : t.childs.map Task.id =
            stepIds (mapRow s id (fun r0 => { r0 with status := true })) id :=
          (getTask_spec hg).2.1
        have hs1find : ∀ j2, findRow (mapRow s id (fun r0 => { r0 with status := true })) j2 =
            if j2 = id then (findRow s j2).map setT else findRow s j2 := by
          intro j2
          rw [findRow_mapRow]
          rfl
        have hiff : DescX (mapRow s id (fun r0 => { r0 with status := true }))
            (Sum.inr (t.childs.map Task.id)) j ↔ ∃ c ∈ stepIds s id, Desc s c j := by
          show (∃ c ∈ t.childs.map Task.id,
            Desc (mapRow s id (fun r0 => { r0 with status := true })) c j) ↔ _
          rw [htops, stepIds_eq_of_structEq hstruct id]
          constructor
          · rintro ⟨c, hc, hd⟩
            exact ⟨c, hc, desc_of_structEq hstruct hd⟩
          · rintro ⟨c, hc, hd⟩
            exact ⟨c, hc, desc_of_structEq (structEq_symm hstruct) hd⟩
        have hIH := ih _ _ r h
        constructor
        · intro hd
          by_cases hex : ∃ c ∈ stepIds s id, Desc s c j
          · have h1 := (hIH j).1 (hiff.mpr hex)
            rw [h1, hs1find j]
            by_cases hj : j = id
            · rw [if_pos hj]
              cases findRow s j <;> rfl
            · rw [if_neg hj]
          · have h2 := (hIH j).2 (fun hx => hex (hiff.mp hx))
            rw [h2, hs1find j]
            rcases (desc_iff s id j).mp hd with rfl | ⟨c, hc, hcd⟩
            · rw [if_pos rfl]
            · exact absurd ⟨c, hc, hcd⟩ hex
        · intro hnd
          have hnj : ¬ j = id := fun e => hnd (by rw [e]; exact Desc.refl id)
          have hnex : ¬ DescX (mapRow s id (fun r0 => { r0 with status := true }))
              (Sum.inr (t.childs.map Task.id)) j :=
            fun hx => hnd ((desc_iff s id j).mpr (Or.inr (hiff.mp hx)))
          rw [(hIH j).2 hnex, hs1find j, if_neg hnj]
    | Sum.inr [] =>
      rw [set_recAux_nil] at h
      have hr : s = r := Option.some_inj.mp h
      constructor
      · intro hx
        obtain ⟨c, hc, _⟩ := hx
        simp at hc
      · intro _
        rw [hr]
    | Sum.inr (c :: cs) =>
      rw [set_recAux_cons] at h
      cases h1 : set_recAux fuel s (Sum.inl c) true with
      | none =>
        rw [h1] at h
        cases h
      | some s2 =>
        rw [h1] at h
        have hIH1 := ih s (Sum.inl c) s2 h1
        have hIH2 := ih s2 (Sum.inr cs) r h
        have hstruct2 : StructEq s2 s := by
          intro j2
          by_cases hd : Desc s c j2
          · rw [(hIH1 j2).1 hd]
            cases findRow s j2 <;> rfl
          · rw [(hIH1 j2).2 hd]
        constructor
        · intro hx
          obtain ⟨d, hdm, hdd⟩ := hx
          by_cases hcs : ∃ d2 ∈ cs, Desc s d2 j
          · obtain ⟨d2, hd2m, hd2d⟩ := hcs
            have hx2 : DescX s2 (Sum.inr cs) j :=
              ⟨d2, hd2m, desc_of_structEq (structEq_symm hstruct2) hd2d⟩
            rw [(hIH2 j).1 hx2]
            by_cases hdc : Desc s c j
            · rw [(hIH1 j).1 hdc]
              cases findRow s j <;> rfl
            · rw [(hIH1 j).2 hdc]
          · have hdc : Desc s c j := by
              rcases List.mem_cons.mp hdm with rfl | hin
              · exact hdd
              · exact absurd ⟨d, hin, hdd⟩ hcs
            have hnex2 : ¬ DescX s2 (Sum.inr cs) j := by
              intro hx2
              obtain ⟨d2, hd2m, hd2d⟩ := hx2
              exact hcs ⟨d2, hd2m, desc_of_structEq hstruct2 hd2d⟩
            rw [(hIH2 j).2 hnex2, (hIH1 j).1 hdc]
        · intro hnd
          have hndc : ¬ Desc s c j := fun hx => hnd ⟨c, List.mem_cons_self c cs, hx⟩
          have hnex2 : ¬ DescX s2 (Sum.inr cs) j := by
            intro hx2
            obtain ⟨d2, hd2m, hd2d⟩ := hx2
            exact hnd ⟨d2, List.mem_cons_of_mem c hd2m, desc_of_structEq hstruct2 hd2d⟩
          rw [(hIH2 j).2 hnex2, (hIH1 j).2 hndc]

/-- What the cascade started on the hydrated children of `T` does, seen
from the pre-toggle store: everything `Desc`-reachable from `T` has its
status forced to true, everything else is untouched. -/
theorem cascade_from_tops (s : Store) (fuel T : Nat) (tops : List Nat) (r : Store)
    (htops : tops = stepIds s T)
    (h : set_recAux fuel (mapRow s T (fun r0 => { r0 with status := true }))
      (Sum.inr tops) true = some r) :
    (∀ j, Desc s T j → findRow r j = (findRow s j).map setT)
    ∧ (∀ j, ¬ Desc s T j → findRow r j = findRow s j) := by
  have hstruct : StructEq (mapRow s T (fun r0 => { r0 with status := true })) s :=
    structEq_mapRow_status s T true
  have hchar := set_recAux_char fuel _ _ r h
  have hs1find : ∀ j2, findRow (mapRow s T (fun r0 => { r0 with status := true })) j2 =
      if j2 = T then (findRow s j2).map setT else findRow s j2 := by
    intro j2
    rw [findRow_mapRow]
    rfl
  have hiff : ∀ j, DescX (mapRow s T (fun r0 => { r0 with status := true }))
      (Sum.inr tops) j ↔ ∃ c ∈ stepIds s T, Desc s c j := by
    intro j
    show (∃ c ∈ tops, Desc (mapRow s T (fun r0 => { r0 with status := true })) c j) ↔ _
    rw [htops]
    constructor
    · rintro ⟨c, hc, hd⟩
      exact ⟨c, hc, desc_of_structEq hstruct hd⟩
    · rintro ⟨c, hc, hd⟩
      exact ⟨c, hc, desc_of_structEq (structEq_symm hstruct) hd⟩
  constructor
  · intro j hd
    by_cases hex : ∃ c ∈ stepIds s T, Desc s c j
    · have h1 := (hchar j).1 ((hiff j).mpr hex)
      rw [h1, hs1find j]
      by_cases hj : j = T
      · rw [if_pos hj]
        cases findRow s j <;> rfl
      · rw [if_neg hj]
    · have h2 := (hchar j).2 (fun hx => hex ((hiff j).mp hx))
      rw [h2, hs1find j]
      rcases (desc_iff s T j).mp hd with rfl | ⟨c, hc, hcd⟩
      · rw [if_pos rfl]
      · exact absurd ⟨c, hc, hcd⟩ hex
  · intro j hnd
    have hnj : ¬ j = T := fun e => hnd (by rw [e]; exact Desc.refl T)
    have hnex : ¬ DescX (mapRow s T (fun r0 => { r0 with status := true }))
        (Sum.inr tops) j :=
      fun hx => hnd ((desc_iff s T j).mpr (Or.inr ((hiff j).mp hx)))
    rw [(hchar j).2 hnex, hs1find j, if_neg hnj]

/-- The full behavior of `toggle_task`, split on the stored status of the
target. -/
theorem toggle_char (s : Store) (fuel T : Nat) (r : Store)
    (h : toggleF s fuel T = some r) :
    (statusOf s T = none → r = s)
    ∧ (statusOf s T = some false →
        (∀ j, Desc s T j → findRow r j = (findRow s j).map setT)
        ∧ (∀ j, ¬ Desc s T j → findRow r j = findRow s j))
    ∧ (statusOf s T = some true →
        (∀ j, j = T → findRow r j = (findRow s j).map setF)
        ∧ (∀ j, j ≠ T → findRow r j = findRow s j)) := by
  cases hg : getTask s T with
  | none =>
    have hfr : findRow s T = none := getTask_none_iff.mp hg
    rw [toggleF, hg] at h
    have hr : s = r := Option.some_inj.mp h
    refine ⟨fun _ => hr.symm, fun hst => ?_, fun hst => ?_⟩
    · rw [statusOf, hfr] at hst
      cases hst
    · rw [statusOf, hfr] at hst
      cases hst
  | some t =>
    obtain ⟨hid, hchilds, hstat⟩ := getTask_spec hg
    obtain ⟨i, ti, d, b, u, pa, ch⟩ := t
    cases b with
    | false =>
      have h2 : set_recAux fuel (mapRow s T (fun r0 => { r0 with status := true }))
          (Sum.inr ((Task.mk i ti d false u pa ch).childs.map Task.id)) true = some r := by
        rw [toggleF, hg] at h
        exact h
      have hst0 : statusOf s T = some false := hstat
      have hcas := cascade_from_tops s fuel T _ r hchilds h2
      refine ⟨fun hst => ?_, fun _ => hcas, fun hst => ?_⟩
      · rw [hst0] at hst
        cases hst
      · rw [hst0] at hst
        cases Option.some_inj.mp hst
    | true =>
      have h2 : (some (mapRow s T (fun r0 => { r0 with status := false })) :
          Option Store) = some r := by
        rw [toggleF, hg] at h
        exact h
      have hst0 : statusOf s T = some true := hstat
      have hr : mapRow s T (fun r0 => { r0 with status := false }) = r :=
        Option.some_inj.mp h2
      refine ⟨fun hst => ?_, fun hst => ?_, fun _ => ?_⟩
      · rw [hst0] at hst
        cases hst
      · rw [hst0] at hst
        cases Option.some_inj.mp hst
      · constructor
        · intro j hj
          rw [← hr, findRow_mapRow, if_pos hj]
          rfl
        · intro j hj
          rw [← hr, findRow_mapRow, if_neg hj]

theorem structEq_refl (s : Store) : StructEq s s := fun _ => rfl

/-- Any completed toggle leaves the parent/childs structure unchanged. -/
theorem toggle_structEq (s : Store) (fuel T : Nat) (r : Store)
    (h : toggleF s fuel T = some r) : StructEq r s := by
  obtain ⟨h0, h1, h2⟩ := toggle_char s fuel T r h
  cases hst : statusOf s T with
  | none =>
    rw [h0 hst]
    exact structEq_refl s
  | some b =>
    cases b with
    | false =>
      intro j
      by_cases hd : Desc s T j
      · rw [(h1 hst).1 j hd]
        cases findRow s j <;> rfl
      · rw [(h1 hst).2 j hd]
    | true =>
      intro j
      by_cases hj : j = T
      · rw [(h2 hst).1 j hj]
        cases findRow s j <;> rfl
      · rw [(h2 hst).2 j hj]

theorem toggle_keys (s : Store) (fuel T : Nat) (r : Store)
    (h : toggleF s fuel T = some r) : keys r = keys s := by
  cases hg : getTask s T with
  | none =>
    rw [toggleF, hg] at h
    rw [← Option.some_inj.mp h]
  | some t =>
    obtain ⟨i, ti, d, b, u, pa, ch⟩ := t
    cases b with
    | false =>
      have h2 : set_recAux fuel (mapRow s T (fun r0 => { r0 with status := true }))
          (Sum.inr ((Task.mk i ti d false u pa ch).childs.map Task.id)) true = some r := by
        rw [toggleF, hg] at h
        exact h
      rw [set_recAux_keys _ _ _ _ _ h2, keys_mapRow]
    | true =>
      have h2 : (some (mapRow s T (fun r0 => { r0 with status := false })) :
          Option Store) = some r := by
        rw [toggleF, hg] at h
        exact h
      rw [← Option.some_inj.mp h2, keys_mapRow]

/-! ### The recursive delete only removes rows -/

theorem deleteAux_zero (s : Store) (x : Sum Nat (List Nat)) : deleteAux 0 s x = none := rfl

theorem deleteAux_inl (fuel : Nat) (s : Store) (id : Nat) :
    deleteAux (fuel + 1) s (Sum.inl id) =
      match getTask s id with
      | none => some s
      | some t =>
        match deleteAux fuel s (Sum.inr (t.childs.map Task.id)) with
        | none => none
        | some s2 => some (deleteRow s2 id) := rfl

theorem deleteAux_nil (fuel : Nat) (s : Store) :
    deleteAux (fuel + 1) s (Sum.inr []) = some s := rfl

theorem deleteAux_cons (fuel : Nat) (s : Store) (c : Nat) (cs : List Nat) :
    deleteAux (fuel + 1) s (Sum.inr (c :: cs)) =
      match deleteAux fuel s (Sum.inl c) with
      | none => none
      | some s2 => deleteAux fuel s2 (Sum.inr cs) := rfl

theorem restriction_refl (s : Store) : Restriction s s := fun _ => Or.inl rfl

theorem restriction_trans {r s2 s : Store} (h1 : Restriction r s2) (h2 : Restriction s2 s) :
    Restriction r s := by
  intro j
  rcases h1 j with h | h
  · rcases h2 j with h3 | h3
    · exact Or.inl (h.trans h3)
    · exact Or.inr (h.trans h3)
  · exact Or.inr h

theorem deleteAux_restriction :
    ∀ fuel (s : Store) x r, deleteAux fuel s x = some r → Restriction r s := by
  intro fuel
  induction fuel with
  | zero =>
    intro s x r h
    rw [deleteAux_zero] at h
    cases h
  | succ fuel ih =>
    intro s x r h
    match x with
    | Sum.inl id =>
      rw [deleteAux_inl] at h
      cases hg : getTask s id with
      | none =>
        rw [hg] at h
        rw [← Option.some_inj.mp h]
        exact restriction_refl s
      | some t =>
        rw [hg] at h
        have h2 : (match deleteAux fuel s (Sum.inr (t.childs.map Task.id)) with
            | none => none
            | some s2 => some (deleteRow s2 id)) = some r := h
        cases h1 : deleteAux fuel s (Sum.inr (t.childs.map Task.id)) with
        | none =>
          rw [h1] at h2
          cases h2
        | some s2 =>
          rw [h1] at h2
          have hr : deleteRow s2 id = r := Option.some_inj.mp h2
          intro j
          rw [← hr, findRow_deleteRow]
          by_cases hj : j = id
          · rw [if_pos hj]
            exact Or.inr rfl
          · rw [if_neg hj]
            exact ih _ _ _ h1 j
    | Sum.inr [] =>
      rw [deleteAux_nil] at h
      rw [← Option.some_inj.mp h]
      exact restriction_refl s
    | Sum.inr (c :: cs) =>
      rw [deleteAux_cons] at h
      cases h1 : deleteAux fuel s (Sum.inl c) with
      | none =>
        rw [h1] at h
        cases h
      | some s2 =>
        rw [h1] at h
        exact restriction_trans (ih _ _ _ h) (ih _ _ _ h1)

theorem deleteAux_keys_sublist :
    ∀ fuel (s : Store) x r, deleteAux fuel s x = some r → (keys r).Sublist (keys s) := by
  intro fuel
  induction fuel with
  | zero =>
    intro s x r h
    rw [deleteAux_zero] at h
    cases h
  | succ fuel ih =>
    intro s x r h
    match x with
    | Sum.inl id =>
      rw [deleteAux_inl] at h
      cases hg : getTask s id with
      | none =>
        rw [hg] at h
        rw [← Option.some_inj.mp h]
      | some t =>
        rw [hg] at h
        have h2 : (match deleteAux fuel s (Sum.inr (t.childs.map Task.id)) with
            | none => none
            | some s2 => some (deleteRow s2 id)) = some r := h
        cases h1 : deleteAux fuel s (Sum.inr (t.childs.map Task.id)) with
        | none =>
          rw [h1] at h2
          cases h2
        | some s2 =>
          rw [h1] at h2
          rw [← Option.some_inj.mp h2]
          exact List.Sublist.trans (keys_deleteRow_sublist s2 id) (ih _ _ _ h1)
    | Sum.inr [] =>
      rw [deleteAux_nil] at h
      rw [← Option.some_inj.mp h]
    | Sum.inr (c :: cs) =>
      rw [deleteAux_cons] at h
      cases h1 : deleteAux fuel s (Sum.inl c) with
      | none =>
        rw [h1] at h
        cases h
      | some s2 =>
        rw [h1] at h
        exact List.Sublist.trans (ih _ _ _ h) (ih _ _ _ h1)

/-! ### Conversions between the decidable predicates and their Prop forms -/

theorem wf_nodup {s : Store} (hw : wfB s = true) : (keys s).Nodup := by
  rw [wfB, Bool.and_eq_true] at hw
  exact of_decide_eq_true hw.1

theorem wf_key_ne_zero {s : Store} (hw : wfB s = true) {k : Nat} (hk : k ∈ keys s) :
    k ≠ 0 := by
  rw [wfB, Bool.and_eq_true] at hw
  exact of_decide_eq_true (List.all_eq_true.mp hw.2 k hk)

theorem wfB_of_keys_eq {r s : Store} (h : keys r = keys s) (hw : wfB s = true) :
    wfB r = true := by
  rw [wfB] at hw ⊢
  rw [h]
  exact hw

theorem wfB_of_sublist {r s : Store} (h : (keys r).Sublist (keys s)) (hw : wfB s = true) :
    wfB r = true := by
  rw [wfB, Bool.and_eq_true] at hw ⊢
  constructor
  · exact decide_eq_true (List.Nodup.sublist h (of_decide_eq_true hw.1))
  · apply List.all_eq_true.mpr
    intro k hk
    exact List.all_eq_true.mp hw.2 k (h.subset hk)

theorem i1b_iff {s : Store} (hw : wfB s = true) : I1b s = true ↔ I1P s := by
  constructor
  · intro hb a ra b rb hra hrb
    have h1 := List.all_eq_true.mp hb _ (mem_of_findRow hra)
    have h2 := List.all_eq_true.mp h1 _ (mem_of_findRow hrb)
    have h3 : decide (b ∈ ra.childs) = decide (rb.parent = some a) := beq_iff_eq.mp h2
    exact decide_eq_decide.mp h3
  · intro hp
    apply List.all_eq_true.mpr
    intro pa hpa
    apply List.all_eq_true.mpr
    intro pb hpb
    have hra := findRow_of_mem (wf_nodup hw) hpa
    have hrb := findRow_of_mem (wf_nodup hw) hpb
    have := hp pa.1 pa.2 pb.1 pb.2 hra hrb
    exact beq_iff_eq.mpr (decide_eq_decide.mpr this)

theorem parentsExist_spec {s : Store} (hp : parentsExistB s = true) {a q : Nat} {ra : Row}
    (h : findRow s a = some ra) (hq : ra.parent = some q) :
    (findRow s q).isSome = true := by
  have h1 := List.all_eq_true.mp hp _ (mem_of_findRow h)
  dsimp only at h1
  rw [hq] at h1
  exact h1

theorem childsExist_spec {s : Store} (hc : childsExistB s = true) {a c : Nat} {ra : Row}
    (h : findRow s a = some ra) (hm : c ∈ ra.childs) :
    (findRow s c).isSome = true := by
  have h1 := List.all_eq_true.mp hc _ (mem_of_findRow h)
  exact List.all_eq_true.mp h1 c hm

theorem noSelfChild_spec {s : Store} (hn : noSelfChildB s = true) {a : Nat} {ra : Row}
    (h : findRow s a = some ra) : a ∉ ra.childs := by
  have h1 := List.all_eq_true.mp hn _ (mem_of_findRow h)
  exact of_decide_eq_true h1

/-! ### The ancestor walk -/

theorem is_ancestorF_succ (s : Store) (anc fuel current : Nat) (seen : List Nat) :
    is_ancestorF s anc (fuel + 1) current seen =
      if current ∈ seen then true
      else if current = anc then true
      else
        match get_parent_id s current with
        | none => false
        | some p => is_ancestorF s anc fuel p (current :: seen) := rfl

theorem chainWalkF_succ (s : Store) (fuel current : Nat) (seen : List Nat) :
    chainWalkF s (fuel + 1) current seen =
      if current ∈ seen then true
      else
        match get_parent_id s current with
        | none => false
        | some p => chainWalkF s fuel p (current :: seen) := rfl

/-- The very first comparison of the walk already matches the candidate
against the start node, before any parent link is followed. -/
theorem is_ancestor_self (s : Store) (x : Nat) : is_ancestor s x (some x) = true := by
  show is_ancestorF s x (s.length + 1 + 1) x [] = true
  rw [is_ancestorF_succ, if_neg (List.not_mem_nil x), if_pos rfl]

/-- A walk that hits a repeated id returns true for any candidate: either
the candidate is found first, or the repeat is. -/
theorem chainWalk_imp_ancestor (s : Store) (c : Nat) :
    ∀ fuel current (seen : List Nat), chainWalkF s fuel current seen = true →
      is_ancestorF s c fuel current seen = true := by
  intro fuel
  induction fuel with
  | zero =>
    intro current seen h
    cases h
  | succ fuel ih =>
    intro current seen h
    rw [chainWalkF_succ] at h
    rw [is_ancestorF_succ]
    by_cases hc : current ∈ seen
    · rw [if_pos hc]
    · rw [if_neg hc] at h
      rw [if_neg hc]
      by_cases he : current = c
      · rw [if_pos he]
      · rw [if_neg he]
        cases hp : get_parent_id s current with
        | none =>
          rw [hp] at h
          cases h
        | some p =>
          rw [hp] at h
          exact ih p (current :: seen) h

/-- A genuine stored ancestor is always found by the walk (or a repeat is
found first; either way the walk answers true), provided the fuel exceeds
the number of unvisited stored ids. -/
theorem parentPath_imp_ancestorF (s : Store) (c : Nat) :
    ∀ fuel current (seen : List Nat), ParentPath s current c → freeCard s seen < fuel →
      is_ancestorF s c fuel current seen = true := by
  intro fuel
  induction fuel with
  | zero =>
    intro current seen _ hf
    exact absurd hf (Nat.not_lt_zero _)
  | succ fuel ih =>
    intro current seen hp hf
    rw [is_ancestorF_succ]
    by_cases hc : current ∈ seen
    · rw [if_pos hc]
    · rw [if_neg hc]
      by_cases he : current = c
      · rw [if_pos he]
      · rw [if_neg he]
        cases hp with
        | refl => exact absurd rfl he
        | step hpar hrest =>
          rw [hpar]
          have hkey : ∃ row, findRow s current = some row := by
            rw [get_parent_id] at hpar
            cases hfr : findRow s current with
            | none =>
              rw [hfr] at hpar
              cases hpar
            | some row => exact ⟨row, rfl⟩
          obtain ⟨row, hrow⟩ := hkey
          have hdec := freeCard_cons hrow hc
          exact ih _ (current :: seen) hrest (by omega)

/-! ### What the child-list rewrite writes -/

theorem update_childs_none_of_any {s : Store} {A : Nat} {L : List Nat}
    (h : L.any (fun c => decide (c = A) || is_ancestor s c (some A)) = true) :
    update_childs s A L = none := by
  rw [update_childs, if_pos h]

theorem findRow_foldl_mapRow (f : Row → Row) (hf : ∀ r, f (f r) = f r) :
    ∀ (L : List Nat) (s : Store) (j : Nat),
      findRow (L.foldl (fun acc c => mapRow acc c f) s) j =
        if j ∈ L then (findRow s j).map f else findRow s j := by
  intro L
  induction L with
  | nil =>
    intro s j
    rw [List.foldl_nil, if_neg (List.not_mem_nil j)]
  | cons c cs ih =>
    intro s j
    rw [List.foldl_cons, ih, findRow_mapRow]
    by_cases hcs : j ∈ cs
    · rw [if_pos hcs, if_pos (List.mem_cons_of_mem c hcs)]
      by_cases hjc : j = c
      · rw [if_pos hjc]
        cases findRow s j with
        | none => rfl
        | some r0 =>
          show some (f (f r0)) = some (f r0)
          rw [hf r0]
      · rw [if_neg hjc]
    · rw [if_neg hcs]
      by_cases hjc : j = c
      · rw [if_pos hjc, if_pos (by rw [hjc]; exact List.mem_cons_self c cs)]
      · rw [if_neg hjc, if_neg (by
          intro hx
          rcases List.mem_cons.mp hx with h1 | h1
          · exact hjc h1
          · exact hcs h1)]

theorem update_childs_some_inv {s : Store} {A : Nat} {L : List Nat} {s2 : Store}
    (h : update_childs s A L = some s2) :
    (∀ c ∈ L, ¬ c = A ∧ ¬ is_ancestor s c (some A) = true) ∧
    s2 = ((prevChilds s A).filter (fun c => decide (c ∉ L))).foldl
      (fun acc c => mapRow acc c (fun r => { r with parent := none }))
      (L.foldl (fun acc c => mapRow acc c (fun r => { r with parent := some A }))
        (mapRow s A (fun r => { r with childs := L }))) := by
  rw [update_childs] at h
  by_cases hval : L.any (fun c => decide (c = A) || is_ancestor s c (some A)) = true
  · rw [if_pos hval] at h
    cases h
  · rw [if_neg hval] at h
    constructor
    · intro c hc
      have h1 : ¬ (decide (c = A) || is_ancestor s c (some A)) = true := by
        intro hx
        exact hval (List.any_eq_true.mpr ⟨c, hc, hx⟩)
      rw [Bool.or_eq_true] at h1
      push_neg at h1
      exact ⟨fun he => h1.1 (decide_eq_true he), h1.2⟩
    · have h2 := Option.some_inj.mp h
      rw [← h2]
      rfl

/-- The row each id holds after a successful child-list rewrite. -/
theorem update_childs_findRow {s : Store} {A : Nat} {L : List Nat} {s2 : Store}
    (h : update_childs s A L = some s2) (j : Nat) :
    findRow s2 j =
      (let afterChilds :=
        if j = A then (findRow s j).map (fun r => { r with childs := L }) else findRow s j
      let afterSet :=
        if j ∈ L then afterChilds.map (fun r => { r with parent := some A }) else afterChilds
      if j ∈ (prevChilds s A).filter (fun c => decide (c ∉ L)) then
        afterSet.map (fun r => { r with parent := none })
      else afterSet) := by
  obtain ⟨_, hs2⟩ := update_childs_some_inv h
  rw [hs2]
  rw [findRow_foldl_mapRow (fun r => { r with parent := none }) (fun r => rfl)]
  rw [findRow_foldl_mapRow (fun r => { r with parent := some A }) (fun r => rfl)]
  rw [findRow_mapRow]

theorem keys_foldl_mapRow (f : Row → Row) :
    ∀ (L : List Nat) (s : Store),
      keys (L.foldl (fun acc c => mapRow acc c f) s) = keys s := by
  intro L
  induction L with
  | nil =>
    intro s
    rfl
  | cons c cs ih =>
    intro s
    rw [List.foldl_cons, ih, keys_mapRow]

theorem update_childs_keys {s : Store} {A : Nat} {L : List Nat} {s2 : Store}
    (h : update_childs s A L = some s2) : keys s2 = keys s := by
  obtain ⟨_, hs2⟩ := update_childs_some_inv h
  rw [hs2, keys_foldl_mapRow, keys_foldl_mapRow, keys_mapRow]

theorem exists_findRow_of_mem_keys {s : Store} {id : Nat} (h : id ∈ keys s) :
    ∃ r, findRow s id = some r := by
  have h1 := findRow_isSome_of_mem h
  cases hfr : findRow s id with
  | none =>
    rw [hfr] at h1
    cases h1
  | some r => exact ⟨r, rfl⟩

theorem length_pos_of_mem_keys {s : Store} {id : Nat} (h : id ∈ keys s) : 1 ≤ s.length := by
  cases s with
  | nil => simp [keys] at h
  | cons p rest => simp

/-! ### The two-task childs cycle: neither the recursive delete nor the
status cascade ever reaches its base case, at any fuel. -/

theorem sCyc_delete_none : ∀ fuel,
    deleteAux fuel sCyc (Sum.inl 1) = none ∧ deleteAux fuel sCyc (Sum.inl 2) = none ∧
    deleteAux fuel sCyc (Sum.inr [2]) = none ∧ deleteAux fuel sCyc (Sum.inr [1]) = none := by
  intro fuel
  induction fuel with
  | zero => exact ⟨rfl, rfl, rfl, rfl⟩
  | succ fuel ih =>
    obtain ⟨h1, h2, h3, h4⟩ := ih
    refine ⟨?_, ?_, ?_, ?_⟩
    · have e : deleteAux (fuel + 1) sCyc (Sum.inl 1) =
          (match deleteAux fuel sCyc (Sum.inr [2]) with
            | none => none
            | some s2 => some (deleteRow s2 1)) := rfl
      rw [e, h3]
    · have e : deleteAux (fuel + 1) sCyc (Sum.inl 2) =
          (match deleteAux fuel sCyc (Sum.inr [1]) with
            | none => none
            | some s2 => some (deleteRow s2 2)) := rfl
      rw [e, h4]
    · have e : deleteAux (fuel + 1) sCyc (Sum.inr [2]) =
          (match deleteAux fuel sCyc (Sum.inl 2) with
            | none => none
            | some s2 => deleteAux fuel s2 (Sum.inr []) ) := rfl
      rw [e, h2]
    · have e : deleteAux (fuel + 1) sCyc (Sum.inr [1]) =
          (match deleteAux fuel sCyc (Sum.inl 1) with
            | none => none
            | some s2 => deleteAux fuel s2 (Sum.inr []) ) := rfl
      rw [e, h1]

theorem sCyc_cascade_none : ∀ fuel,
    set_recAux fuel sCycAB (Sum.inl 1) true = none ∧
    set_recAux fuel sCycAB (Sum.inl 2) true = none ∧
    set_recAux fuel sCycAB (Sum.inr [2]) true = none ∧
    set_recAux fuel sCycAB (Sum.inr [1]) true = none ∧
    set_recAux fuel sCycA (Sum.inl 2) true = none ∧
    set_recAux fuel sCycA (Sum.inr [2]) true = none := by
  intro fuel
  induction fuel with
  | zero => exact ⟨rfl, rfl, rfl, rfl, rfl, rfl⟩
  | succ fuel ih =>
    obtain ⟨h1, h2, h3, h4, h5, h6⟩ := ih
    refine ⟨?_, ?_, ?_, ?_, ?_, ?_⟩
    · have e : set_recAux (fuel + 1) sCycAB (Sum.inl 1) true =
          set_recAux fuel sCycAB (Sum.inr [2]) true := rfl
      rw [e, h3]
    · have e : set_recAux (fuel + 1) sCycAB (Sum.inl 2) true =
          set_recAux fuel sCycAB (Sum.inr [1]) true := rfl
      rw [e, h4]
    · have e : set_recAux (fuel + 1) sCycAB (Sum.inr [2]) true =
          (match set_recAux fuel sCycAB (Sum.inl 2) true with
            | none => none
            | some s2 => set_recAux fuel s2 (Sum.inr []) true) := rfl
      rw [e, h2]
    · have e : set_recAux (fuel + 1) sCycAB (Sum.inr [1]) true =
          (match set_recAux fuel sCycAB (Sum.inl 1) true with
            | none => none
            | some s2 => set_recAux fuel s2 (Sum.inr []) true) := rfl
      rw [e, h1]
    · have e : set_recAux (fuel + 1) sCycA (Sum.inl 2) true =
          set_recAux fuel sCycAB (Sum.inr [1]) true := rfl
      rw [e, h4]
    · have e : set_recAux (fuel + 1) sCycA (Sum.inr [2]) true =
          (match set_recAux fuel sCycA (Sum.inl 2) true with
            | none => none
            | some s2 => set_recAux fuel s2 (Sum.inr []) true) := rfl
      rw [e, h5]

theorem sCyc_delete_noneF (fuel : Nat) : delete_task_recursiveF sCyc fuel 1 = none :=
  (sCyc_delete_none fuel).1

theorem sCyc_toggle_noneF (fuel : Nat) : toggleF sCyc fuel 1 = none := by
  have e : toggleF sCyc fuel 1 = set_recAux fuel sCycA (Sum.inr [2]) true := rfl
  rw [e]
  exact (sCyc_cascade_none fuel).2.2.2.2.2

/-! ### The claims -/

/-- C1: the change-parent operation never performs the specified move.
Whenever the task has an old parent, or a nonzero new parent id is given,
the handler ends in an uncaught dynamic-typing error (or a validation
rejection) instead of moving the task and returning it: `old_parent_id`
holds a hydrated Task object where an id is expected, and `task.parent`
is set to a raw int before `update_task` reads `.id` from it. -/
theorem claim_C1 (s : Store) (fuel id : Nat) (pid : Option Nat) (now : Nat) (task : Task)
    (hg : getTask s id = some task)
    (hcase : task.parent.isSome = true ∨ (∃ p, pid = some p ∧ p ≠ 0))
    (res : Except Err (Store × Task))
    (hres : change_parentF s fuel id pid now = some res) :
    exceptIsOk res = false := by
  cases pid with
  | none =>
    have h2 : change_parentRest s id task none now = some res := by
      rw [change_parentF, hg] at hres
      exact hres
    rcases hcase with hps | ⟨p, hp, _⟩
    · obtain ⟨pt, hpt⟩ : ∃ pt, task.parent = some pt := by
        cases hx : task.parent with
        | none =>
          rw [hx] at hps
          cases hps
        | some pt => exact ⟨pt, rfl⟩
      rw [change_parentRest, hpt] at h2
      rw [← Option.some_inj.mp h2]
      rfl
    · cases hp
  | some p =>
    have h2 : (if p = task.id then some (Except.error Err.badRequest)
        else match is_descAux fuel s (Sum.inl id) p with
          | none => none
          | some true => some (Except.error Err.badRequest)
          | some false => change_parentRest s id task (some p) now) = some res := by
      rw [change_parentF, hg] at hres
      exact hres
    by_cases hpid : p = task.id
    · rw [if_pos hpid] at h2
      rw [← Option.some_inj.mp h2]
      rfl
    · rw [if_neg hpid] at h2
      cases hd : is_descAux fuel s (Sum.inl id) p with
      | none =>
        rw [hd] at h2
        cases h2
      | some b =>
        cases b with
        | true =>
          rw [hd] at h2
          rw [← Option.some_inj.mp h2]
          rfl
        | false =>
          rw [hd] at h2
          cases hpt : task.parent with
          | some pt =>
            rw [change_parentRest, hpt] at h2
            rw [← Option.some_inj.mp h2]
            rfl
          | none =>
            rw [change_parentRest, hpt] at h2
            have h3 : change_parentNewParent s id task p now = some res := h2
            rcases hcase with hps | ⟨p2, hp2, hne⟩
            · rw [hpt] at hps
              cases hps
            · have hpp : p2 = p := Option.some_inj.mp hp2.symm
              rw [hpp] at hne
              rw [change_parentNewParent, if_pos hne] at h3
              cases hgp : getTask s p with
              | none =>
                rw [hgp] at h3
                rw [← Option.some_inj.mp h3]
                rfl
              | some pt =>
                rw [hgp] at h3
                have h4 : (match update_childs s p (pt.childs.map Task.id ++ [task.id]) with
                    | none => some (Except.error Err.valueError)
                    | some _ => some (Except.error Err.typeError)) = some res := h3
                cases hu : update_childs s p (pt.childs.map Task.id ++ [task.id]) with
                | none =>
                  rw [hu] at h4
                  rw [← Option.some_inj.mp h4]
                  rfl
                | some s3 =>
                  rw [hu] at h4
                  rw [← Option.some_inj.mp h4]
                  rfl

theorem claim_C1_witness :
    getTask sW 2 = some (Task.mk 2 "c" none false none
        (some (Task.mk 1 "o" none false none none [])) [])
    ∧ change_parentF sW 5 2 none 0 = some (Except.error Err.typeError)
    ∧ exceptIsOk (Except.error Err.typeError) = false :=
  ⟨rfl, rfl, claim_C1 sW 5 2 none 0
    (Task.mk 2 "c" none false none (some (Task.mk 1 "o" none false none none [])) [])
    rfl (Or.inl rfl) (Except.error Err.typeError) rfl⟩

/-- C2: the create handler never creates a task.  After resolving the
parent (404 for a truthy absent parent id), every path constructs the
`Task` dataclass without its required `updated` field and raises
TypeError, so the insertion is never reached.  The claimed behavior
(insert, link to parent, return the created task) is the documented
intent; the code contradicts it on every input. -/
theorem claim_C2 (s : Store) (title : String) (descr : Option String) (st : Bool)
    (parent : Option Nat) :
    create_task s title descr st parent = Except.error Err.notFound ∨
    create_task s title descr st parent = Except.error Err.typeError := by
  cases parent with
  | none => exact Or.inr rfl
  | some p =>
    by_cases hp : p = 0
    · refine Or.inr ?_
      show (if p = 0 then Except.error Err.typeError
        else match getTask s p with
          | none => Except.error Err.notFound
          | some _ => Except.error Err.typeError) = Except.error Err.typeError
      rw [if_pos hp]
    · cases hg : getTask s p with
      | none =>
        refine Or.inl ?_
        show (if p = 0 then Except.error Err.typeError
          else match getTask s p with
            | none => Except.error Err.notFound
            | some _ => Except.error Err.typeError) = Except.error Err.notFound
        rw [if_neg hp, hg]
      | some t =>
        refine Or.inr ?_
        show (if p = 0 then Except.error Err.typeError
          else match getTask s p with
            | none => Except.error Err.notFound
            | some _ => Except.error Err.typeError) = Except.error Err.typeError
        rw [if_neg hp, hg]

/-- C3 (counterexample): on the store whose two rows list each other as
childs, neither the recursive delete of task 1 nor the toggle of task 1
(whose new status is true, so it cascades) ever completes: at every fuel
the embedded recursion is still running.  In Python this is unbounded
mutual recursion ending in RecursionError, not graceful degradation. -/
theorem claim_C3_counterexample :
    (deleteTerminates sCyc 1 ∨ toggleTerminates sCyc 1) = False := by
  apply eq_false
  rintro (⟨fuel, h⟩ | ⟨fuel, h⟩)
  · rw [sCyc_delete_noneF fuel] at h
    simp at h
  · rw [sCyc_toggle_noneF fuel] at h
    simp at h

/-- C3 (amended): the hydration traversal `get_task`, which threads its
visited set through the recursion, terminates on every store — beyond
`length + 1` fuel the answer never changes; but `delete_task_recursive`
and the downward cascade of `toggle_task` re-fetch with a fresh visited
set at every level and do not terminate on a store whose childs lists
form a cycle, such as two tasks listing each other. -/
theorem claim_C3 :
    (∀ (s : Store) (fuel id : Nat) (visited : List Nat), s.length + 1 ≤ fuel →
      get_taskF s fuel id visited = get_taskF s (s.length + 1) id visited)
    ∧ (∀ fuel, delete_task_recursiveF sCyc fuel 1 = none)
    ∧ (∀ fuel, toggleF sCyc fuel 1 = none) :=
  ⟨getTask_eq_of_le, sCyc_delete_noneF, sCyc_toggle_noneF⟩

/-- C5 (counterexample): with an empty candidate list the validation loop
of `updateChilds` never runs, so a pre-existing cycle in the stored
parent chain is not detected: on the store whose single task is its own
parent, `updateChilds(1, [])` succeeds even though walking the parent
chain of 1 immediately repeats an id. -/
theorem claim_C5_counterexample :
    chainRepeat sSelfP 1 = true ∧ (update_childs sSelfP 1 []).isSome = true := by
  constructor
  · rfl
  · rfl

/-- C5 (amended): `updateChilds(A, L)` fails with CycleDetected
(ValueError), leaving the store untouched, whenever A itself appears in
L, or some c in L is an ancestor of A along stored parent links, or L is
nonempty and walking the parent chain of A meets a repeated id.  The
validation happens before any write, so a `none` result is a rejection
with no mutation. -/
theorem claim_C5 (s : Store) (A : Nat) (L : List Nat)
    (h : A ∈ L ∨ (∃ c ∈ L, ParentPath s A c) ∨ (L ≠ [] ∧ chainRepeat s A = true)) :
    update_childs s A L = none := by
  apply update_childs_none_of_any
  apply List.any_eq_true.mpr
  rcases h with hA | ⟨c, hc, hp⟩ | ⟨hne, hcr⟩
  · exact ⟨A, hA, by rw [decide_eq_true rfl, Bool.true_or]⟩
  · refine ⟨c, hc, ?_⟩
    have hanc : is_ancestor s c (some A) = true := by
      show is_ancestorF s c (s.length + 2) A [] = true
      apply parentPath_imp_ancestorF s c (s.length + 2) A [] hp
      have := freeCard_le s []
      omega
    rw [hanc, Bool.or_true]
  · obtain ⟨c, cs, rfl⟩ : ∃ c cs, L = c :: cs := by
      cases L with
      | nil => exact absurd rfl hne
      | cons c cs => exact ⟨c, cs, rfl⟩
    refine ⟨c, List.mem_cons_self c cs, ?_⟩
    have hanc : is_ancestor s c (some A) = true := by
      show is_ancestorF s c (s.length + 2) A [] = true
      exact chainWalk_imp_ancestor s c (s.length + 2) A [] hcr
    rw [hanc, Bool.or_true]

theorem claim_C5_witness :
    (1 ∈ [1]) ∧ update_childs sOne 1 [1] = none :=
  ⟨by decide, claim_C5 sOne 1 [1] (Or.inl (by decide))⟩

/-- C6: hydration terminates on every store — past `length + 1` fuel the
traversal is already converged — and on the corrupted store with
`1.childs = [2]`, `2.childs = [1]` the tree returned for task 1 contains
task 2 exactly once, with the duplicate back-reference to 1 suppressed;
a parent-link cycle is likewise cut during parent expansion. -/
theorem claim_C6 :
    (∀ (s : Store) (fuel id : Nat) (visited : List Nat), s.length + 1 ≤ fuel →
      get_taskF s fuel id visited = get_taskF s (s.length + 1) id visited)
    ∧ (getTask sCyc 1).map (fun t => (t.id, t.childs.map Task.id)) = some (1, [2])
    ∧ (getTask sCyc 1).map (fun t => t.childs.map (fun c => c.childs.map Task.id)) =
        some [[]]
    ∧ (getTask sPP 1).map (fun t => (t.parent.map Task.id,
        t.parent.map (fun q => q.parent.isSome))) = some (some 2, some false) :=
  ⟨getTask_eq_of_le, rfl, rfl, rfl⟩

/-- C10: the ancestor walk compares the start node against the candidate
before following any parent link, so `isAncestor(x, x)` is true on every
store; consequently `updateChilds(A, L)` with `A ∈ L` is rejected — the
ancestor check alone already flags the self-link, independently of the
explicit self-child test that happens to run first. -/
theorem claim_C10 (s : Store) (x : Nat) (L : List Nat) (hx : x ∈ L) :
    is_ancestor s x (some x) = true ∧ update_childs s x L = none := by
  refine ⟨is_ancestor_self s x, ?_⟩
  apply update_childs_none_of_any
  apply List.any_eq_true.mpr
  refine ⟨x, hx, ?_⟩
  rw [is_ancestor_self s x, Bool.or_true]

theorem claim_C10_witness :
    (1 ∈ [1]) ∧ is_ancestor sOne 1 (some 1) = true ∧ update_childs sOne 1 [1] = none :=
  ⟨by decide, (claim_C10 sOne 1 [1] (by decide)).1, (claim_C10 sOne 1 [1] (by decide)).2⟩

/-- C4: after a successful `updateChilds(A, L)` on a well-formed store
with `A` stored and the members of `L` stored, every `B ∈ L` hydrates
with a parent whose id is `A`, and every id that was in the childs list
of `A` but is absent from `L` hydrates with no parent. -/
theorem claim_C4 (s : Store) (A : Nat) (L : List Nat) (s2 : Store)
    (hw : wfB s = true) (hA : A ∈ keys s) (hL : ∀ B ∈ L, B ∈ keys s)
    (h : update_childs s A L = some s2) :
    (∀ B ∈ L, ((getTask s2 B).bind Task.parent).map Task.id = some A)
    ∧ (∀ C ∈ prevChilds s A, C ∉ L → (getTask s2 C).bind Task.parent = none) := by
  have hkeys : keys s2 = keys s := update_childs_keys h
  have hval := (update_childs_some_inv h).1
  constructor
  · intro B hB
    have hBA : ¬ B = A := (hval B hB).1
    obtain ⟨rb, hrb⟩ := exists_findRow_of_mem_keys (hL B hB)
    have hnotrem : B ∉ (prevChilds s A).filter (fun c => decide (c ∉ L)) := by
      intro hx
      have h1 := (List.mem_filter.mp hx).2
      rw [decide_eq_true_eq] at h1
      exact h1 hB
    have hfind2 : findRow s2 B = some { rb with parent := some A } := by
      rw [update_childs_findRow h B]
      simp only [if_neg hBA, if_pos hB, if_neg hnotrem]
      rw [hrb]
      rfl
    have hAkey2 : A ∈ keys s2 := by
      rw [hkeys]
      exact hA
    obtain ⟨ra2, hA2⟩ := exists_findRow_of_mem_keys hAkey2
    have hAne0 : A ≠ 0 := wf_key_ne_zero hw hA
    rw [getTask_of_findRow hfind2]
    have hcond : A ≠ 0 ∧ A ∉ B :: ([] : List Nat) := by
      refine ⟨hAne0, ?_⟩
      intro hx
      rcases List.mem_cons.mp hx with h1 | h1
      · exact hBA h1.symm
      · simp at h1
    show (if A ≠ 0 ∧ A ∉ B :: ([] : List Nat) then
        get_taskF s2 s2.length A (B :: []) else none).map Task.id = some A
    rw [if_pos hcond]
    have hlen : 1 ≤ s2.length := length_pos_of_mem_keys hAkey2
    obtain ⟨k, hk⟩ : ∃ k, s2.length = k + 1 := ⟨s2.length - 1, by omega⟩
    rw [hk, get_taskF_succ, if_neg hcond.2, hA2]
    rfl
  · intro C hC hCL
    have hCrem : C ∈ (prevChilds s A).filter (fun c => decide (c ∉ L)) :=
      List.mem_filter.mpr ⟨hC, decide_eq_true hCL⟩
    have hfind2 := update_childs_findRow h C
    simp only [if_pos hCrem, if_neg hCL] at hfind2
    cases hX : (if C = A then (findRow s C).map (fun r => { r with childs := L })
        else findRow s C) with
    | none =>
      rw [hX] at hfind2
      have hfind3 : findRow s2 C = none := hfind2
      rw [getTask_none_iff.mpr hfind3]
      rfl
    | some r =>
      rw [hX] at hfind2
      have hfind3 : findRow s2 C = some { r with parent := none } := hfind2
      rw [getTask_of_findRow hfind3]
      rfl

theorem claim_C4_witness :
    wfB sW = true ∧ (3 ∈ keys sW) ∧ (∀ B ∈ [2], B ∈ keys sW)
    ∧ update_childs sW 3 [2] = some sWstolen
    ∧ ((getTask sWstolen 2).bind Task.parent).map Task.id = some 3 := by
  refine ⟨by decide, by decide, by decide, by decide, ?_⟩
  exact (claim_C4 sW 3 [2] sWstolen (by decide) (by decide) (by decide)
    (by decide)).1 2 (by decide)

/-- C7: for a completed toggle of a stored task `T`: when the stored
status of `T` was false, `T` and every id the cascade reaches from `T`
(the `Desc`-closure along stored childs links) have status forced to
true and every other row is untouched; when it was true, only the row of
`T` changes, to status false, and every descendant keeps its status. -/
theorem claim_C7 (s : Store) (fuel T : Nat) (r : Store)
    (h : toggleF s fuel T = some r) :
    (statusOf s T = some false →
      (∀ j, Desc s T j → findRow r j = (findRow s j).map setT)
      ∧ (∀ j, ¬ Desc s T j → findRow r j = findRow s j))
    ∧ (statusOf s T = some true →
      (∀ j, j = T → findRow r j = (findRow s j).map setF)
      ∧ (∀ j, j ≠ T → findRow r j = findRow s j)) := by
  obtain ⟨h0, h1, h2⟩ := toggle_char s fuel T r h
  exact ⟨h1, h2⟩

theorem claim_C7_witness :
    statusOf sW 1 = some false ∧ toggleF sW 5 1 = some sWT
    ∧ findRow sWT 2 = (findRow sW 2).map setT
    ∧ findRow sWT 3 = findRow sW 3 := by
  have hnd : ¬ Desc sW 1 3 := by
    intro hd
    rcases (desc_iff sW 1 3).mp hd with h | ⟨c, hc, hcd⟩
    · exact absurd h (by decide)
    · have hs1 : stepIds sW 1 = [2] := by decide
      rw [hs1] at hc
      have hc2 : c = 2 := by simpa using hc
      subst hc2
      rcases (desc_iff sW 2 3).mp hcd with h | ⟨d, hd2, _⟩
      · exact absurd h (by decide)
      · have hs2 : stepIds sW 2 = [] := by decide
        rw [hs2] at hd2
        simp at hd2
  refine ⟨by decide, by decide, ?_, ?_⟩
  · exact ((claim_C7 sW 5 1 sWT (by decide)).1 (by decide)).1 2
      (Desc.head (show 2 ∈ stepIds sW 1 by decide) (Desc.refl 2))
  · exact ((claim_C7 sW 5 1 sWT (by decide)).1 (by decide)).2 3 hnd

/-! ### Roots and insertion -/

theorem findRow_eq_none_of_not_mem {s : Store} {id : Nat} (h : id ∉ keys s) :
    findRow s id = none := by
  cases hfr : findRow s id with
  | none => rfl
  | some r => exact absurd (findRow_mem_keys hfr) h

theorem mem_foldl_append (g : Task → List Nat) :
    ∀ (ts : List Task) (init : List Nat) (j : Nat),
      (j ∈ ts.foldl (fun acc t => acc ++ g t) init ↔ j ∈ init ∨ ∃ t ∈ ts, j ∈ g t) := by
  intro ts
  induction ts with
  | nil =>
    intro init j
    rw [List.foldl_nil]
    constructor
    · exact fun h => Or.inl h
    · rintro (h | ⟨t, ht, _⟩)
      · exact h
      · simp at ht
  | cons t ts ih =>
    intro init j
    rw [List.foldl_cons, ih]
    constructor
    · rintro (h | ⟨t2, ht2, hj⟩)
      · rcases List.mem_append.mp h with h1 | h1
        · exact Or.inl h1
        · exact Or.inr ⟨t, List.mem_cons_self t ts, h1⟩
      · exact Or.inr ⟨t2, List.mem_cons_of_mem t ht2, hj⟩
    · rintro (h | ⟨t2, ht2, hj⟩)
      · exact Or.inl (List.mem_append.mpr (Or.inl h))
      · rcases List.mem_cons.mp ht2 with rfl | h1
        · exact Or.inl (List.mem_append.mpr (Or.inr hj))
        · exact Or.inr ⟨t2, h1, hj⟩

theorem mem_db_get_tasks {s : Store} {t : Task} (h : t ∈ db_get_tasks s) :
    ∃ a ra, (a, ra) ∈ s ∧ ra.parent = none ∧ t = build_taskF s s.length a ra [] := by
  obtain ⟨p, hp, hcond⟩ := List.mem_filterMap.mp h
  by_cases hpar : p.2.parent = none
  · rw [if_pos hpar] at hcond
    exact ⟨p.1, p.2, hp, hpar, (Option.some_inj.mp hcond).symm⟩
  · rw [if_neg hpar] at hcond
    cases hcond

theorem db_get_tasks_mem {s : Store} {a : Nat} {ra : Row} (h : (a, ra) ∈ s)
    (hpar : ra.parent = none) : build_taskF s s.length a ra [] ∈ db_get_tasks s := by
  apply List.mem_filterMap.mpr
  exact ⟨(a, ra), h, by rw [if_pos hpar]⟩

theorem mem_stepIds {s : Store} {a j : Nat} :
    j ∈ stepIds s a ↔
      ∃ ra, findRow s a = some ra ∧ j ∈ ra.childs ∧ j ≠ a ∧ (findRow s j).isSome = true := by
  rw [stepIds]
  cases hfr : findRow s a with
  | none => simp
  | some ra =>
    constructor
    · intro h
      obtain ⟨c, hc, hcond⟩ := List.mem_filterMap.mp h
      by_cases h1 : c = a
      · rw [if_pos h1] at hcond
        cases hcond
      · rw [if_neg h1] at hcond
        by_cases h2 : (findRow s c).isSome = true
        · rw [if_pos h2] at hcond
          have hcj : c = j := Option.some_inj.mp hcond
          subst hcj
          exact ⟨ra, rfl, hc, h1, h2⟩
        · rw [if_neg h2] at hcond
          cases hcond
    · rintro ⟨ra2, hra2, hmem, hne, hsome⟩
      have hra : ra2 = ra := (Option.some_inj.mp hra2).symm
      subst hra
      apply List.mem_filterMap.mpr
      exact ⟨j, hmem, by rw [if_neg hne, if_pos hsome]⟩

/-- On a symmetric store the filter of main.py `get_tasks` removes
nothing: a direct hydrated child of a parentless task has a parent, so
its id never names a parentless task. -/
theorem get_roots_filter_trivial {s : Store} (hw : wfB s = true) (hi : I1b s = true) :
    get_roots s = db_get_tasks s := by
  rw [get_roots]
  apply List.filter_eq_self.mpr
  intro t ht
  rw [decide_eq_true_eq]
  intro hmem
  rw [mem_foldl_append] at hmem
  rcases hmem with h | ⟨t2, ht2, hj⟩
  · simp at h
  · obtain ⟨a, ra, hmem2, hpar2, rfl⟩ := mem_db_get_tasks ht2
    have hra : findRow s a = some ra := findRow_of_mem (wf_nodup hw) hmem2
    have hids : (build_taskF s s.length a ra []).childs.map Task.id = stepIds s a :=
      build_taskF_childs_ids hra (length_pos_of_findRow hra)
    rw [hids] at hj
    obtain ⟨ra2, hra2, hmemc, hne, hsome⟩ := mem_stepIds.mp hj
    have hraeq : ra2 = ra := by
      rw [hra] at hra2
      exact (Option.some_inj.mp hra2).symm
    subst hraeq
    obtain ⟨b, rb, hmemb, hparb, htb⟩ := mem_db_get_tasks ht
    have hrb : findRow s b = some rb := findRow_of_mem (wf_nodup hw) hmemb
    have htid : t.id = b := by
      rw [htb]
      rfl
    rw [htid] at hmemc
    have hi1 := ((i1b_iff hw).mp hi) a ra2 b rb hra2 hrb
    have hp := hi1.mp hmemc
    rw [hparb] at hp
    cases hp

/-- C8 (counterexample): starting from a symmetric store (1 lists 2 and
is its parent; 3 is isolated), the completed child-list rewrite
`updateChilds(3, [2])` reassigns 2 to 3 without removing 2 from the
childs of 1, ending in a state that violates I1. -/
theorem claim_C8_counterexample :
    I1b sW = true ∧ (update_childs sW 3 [2]).map I1b = some false := by
  constructor
  · rfl
  · rfl

/-- C8 (amended): a completed toggle and a completed recursive delete
preserve I1, and inserting a task with no parent and no childs preserves
I1 on a store whose parent and childs references all resolve; but the
child-list rewrite (and the unvalidated full-row update built on the
same writes) can break I1 by reassigning a child without removing it
from the previous parent's list. -/
theorem claim_C8 (s : Store) (hw : wfB s = true) (hi : I1b s = true) :
    (∀ fuel id r, toggleF s fuel id = some r → I1b r = true)
    ∧ (∀ fuel id r, delete_task_recursiveF s fuel id = some r → I1b r = true)
    ∧ (parentsExistB s = true → childsExistB s = true →
      ∀ (title : String) (descr : Option String) (st : Bool) (upd : Option Nat),
        I1b (insert_task s title descr st upd none []).1 = true) := by
  have hip : I1P s := (i1b_iff hw).mp hi
  refine ⟨?_, ?_, ?_⟩
  · intro fuel id r h
    have hse := toggle_structEq s fuel id r h
    have hk := toggle_keys s fuel id r h
    exact (i1b_iff (wfB_of_keys_eq hk hw)).mpr (i1_of_structEq hse hip)
  · intro fuel id r h
    have hres := deleteAux_restriction fuel s (Sum.inl id) r h
    have hsub := deleteAux_keys_sublist fuel s (Sum.inl id) r h
    exact (i1b_iff (wfB_of_sublist hsub hw)).mpr (i1_of_restriction hres hip)
  · intro hpe hce title descr st upd
    have hs2 : (insert_task s title descr st upd none []).1 =
        s ++ [(freshId s, ⟨title, descr, st, upd, none, []⟩)] := rfl
    rw [hs2]
    have hfresh : freshId s ∉ keys s := freshId_not_mem s
    have hkeys2 : keys (s ++ [(freshId s, (⟨title, descr, st, upd, none, []⟩ : Row))]) =
        keys s ++ [freshId s] := by
      simp [keys]
    have hw2 : wfB (s ++ [(freshId s, (⟨title, descr, st, upd, none, []⟩ : Row))]) = true := by
      rw [wfB, Bool.and_eq_true, hkeys2]
      constructor
      · apply decide_eq_true
        rw [List.nodup_append]
        refine ⟨wf_nodup hw, List.nodup_singleton _, ?_⟩
        intro x hx hx2
        rw [List.mem_singleton] at hx2
        subst hx2
        exact hfresh hx
      · apply List.all_eq_true.mpr
        intro k hk
        rcases List.mem_append.mp hk with h1 | h1
        · exact decide_eq_true (wf_key_ne_zero hw h1)
        · rw [List.mem_singleton] at h1
          subst h1
          apply decide_eq_true
          rw [freshId]
          omega
    apply (i1b_iff hw2).mpr
    have hchar : ∀ x rx,
        findRow (s ++ [(freshId s, (⟨title, descr, st, upd, none, []⟩ : Row))]) x = some rx →
        findRow s x = some rx ∨
          (x = freshId s ∧ rx = (⟨title, descr, st, upd, none, []⟩ : Row) ∧
            findRow s x = none) := by
      intro x rx hx
      rw [findRow_append_single] at hx
      cases hfx : findRow s x with
      | some y =>
        rw [hfx] at hx
        exact Or.inl hx
      | none =>
        rw [hfx] at hx
        have hx2 : (if freshId s = x then
            some (⟨title, descr, st, upd, none, []⟩ : Row) else none) = some rx := hx
        by_cases hfx2 : freshId s = x
        · rw [if_pos hfx2] at hx2
          exact Or.inr ⟨hfx2.symm, (Option.some_inj.mp hx2).symm, rfl⟩
        · rw [if_neg hfx2] at hx2
          cases hx2
    intro a ra b rb hra hrb
    rcases hchar a ra hra with ha | ⟨haf, hraw, _⟩
    · rcases hchar b rb hrb with hb | ⟨hbf, hrbw, _⟩
      · exact hip a ra b rb ha hb
      · constructor
        · intro hmem
          exfalso
          have hbs := childsExist_spec hce ha hmem
          rw [hbf, findRow_eq_none_of_not_mem hfresh] at hbs
          cases hbs
        · intro hp
          exfalso
          rw [hrbw] at hp
          cases hp
    · rcases hchar b rb hrb with hb | ⟨hbf, hrbw, _⟩
      · constructor
        · intro hmem
          exfalso
          rw [hraw] at hmem
          simp at hmem
        · intro hp
          exfalso
          have hqs := parentsExist_spec hpe hb hp
          rw [haf, findRow_eq_none_of_not_mem hfresh] at hqs
          cases hqs
      · constructor
        · intro hmem
          exfalso
          rw [hraw] at hmem
          simp at hmem
        · intro hp
          exfalso
          rw [hrbw] at hp
          cases hp

theorem claim_C8_witness :
    wfB sOne = true ∧ I1b sOne = true ∧ toggleF sOne 5 1 = some sOneT
    ∧ I1b sOneT = true :=
  ⟨by decide, by decide, by decide,
    (claim_C8 sOne (by decide) (by decide)).1 5 1 sOneT (by decide)⟩

/-- C9 (counterexample): on the one-row store whose single task 1 has a
dangling parent reference, no task lists 1 in its childs, yet the root
listing is empty — `get_tasks` selects only rows with a NULL parent, so
the claim fails on a store whose stored data is inconsistent. -/
theorem claim_C9_counterexample :
    (∀ p ∈ sDangling, (1 : Nat) ∉ p.2.childs)
    ∧ (findRow sDangling 1).isSome = true
    ∧ (get_roots sDangling).map Task.id = [] := by
  refine ⟨by decide, by decide, by decide⟩

/-- C9 (amended): on a well-formed store satisfying I1 whose parent
references resolve and where no task lists itself, the root listing
returns exactly the stored tasks that appear in no other task's childs
list, each hydrated as `getTask` hydrates it. -/
theorem claim_C9 (s : Store) (hw : wfB s = true) (hi : I1b s = true)
    (hpe : parentsExistB s = true) (hns : noSelfChildB s = true) :
    (∀ j, j ∈ (get_roots s).map Task.id ↔
      ((findRow s j).isSome = true ∧
        ∀ a ra, findRow s a = some ra → a ≠ j → j ∉ ra.childs))
    ∧ (∀ t ∈ get_roots s, getTask s t.id = some t) := by
  have htriv := get_roots_filter_trivial hw hi
  constructor
  · intro j
    rw [htriv]
    constructor
    · intro hj
      obtain ⟨t, ht, htj⟩ := List.mem_map.mp hj
      obtain ⟨a, ra, hmem, hpar, rfl⟩ := mem_db_get_tasks ht
      have hra : findRow s a = some ra := findRow_of_mem (wf_nodup hw) hmem
      have hja : j = a := by
        rw [← htj]
        rfl
      subst hja
      refine ⟨by rw [hra]; rfl, ?_⟩
      intro a2 ra2 hra2 _ hmem2
      have hi1 := ((i1b_iff hw).mp hi) a2 ra2 j ra hra2 hra
      have hp := hi1.mp hmem2
      rw [hpar] at hp
      cases hp
    · rintro ⟨hsome, hnolist⟩
      obtain ⟨rj, hrj⟩ : ∃ rj, findRow s j = some rj := by
        cases hfr : findRow s j with
        | none =>
          rw [hfr] at hsome
          cases hsome
        | some rj => exact ⟨rj, rfl⟩
      have hparj : rj.parent = none := by
        cases hq : rj.parent with
        | none => rfl
        | some q =>
          exfalso
          have hqs := parentsExist_spec hpe hrj hq
          obtain ⟨rq, hrq⟩ : ∃ rq, findRow s q = some rq := by
            cases hfq : findRow s q with
            | none =>
              rw [hfq] at hqs
              cases hqs
            | some rq => exact ⟨rq, rfl⟩
          have hi1 := ((i1b_iff hw).mp hi) q rq j rj hrq hrj
          have hmemq : j ∈ rq.childs := hi1.mpr hq
          by_cases hqj : q = j
          · subst hqj
            have heq : rq = rj := by
              rw [hrj] at hrq
              exact (Option.some_inj.mp hrq).symm
            rw [heq] at hmemq
            exact (noSelfChild_spec hns hrj) hmemq
          · exact (hnolist q rq hrq hqj) hmemq
      apply List.mem_map.mpr
      exact ⟨build_taskF s s.length j rj [],
        db_get_tasks_mem (mem_of_findRow hrj) hparj, rfl⟩
  · intro t ht
    rw [htriv] at ht
    obtain ⟨a, ra, hmem, hpar, rfl⟩ := mem_db_get_tasks ht
    have hra : findRow s a = some ra := findRow_of_mem (wf_nodup hw) hmem
    have hba : (build_taskF s s.length a ra []).id = a := rfl
    rw [hba]
    exact getTask_of_findRow hra

theorem claim_C9_witness :
    wfB sW = true ∧ I1b sW = true ∧ parentsExistB sW = true ∧ noSelfChildB sW = true
    ∧ (1 ∈ (get_roots sW).map Task.id)
    ∧ ((1 : Nat) ∉ (⟨"a", none, false, none, none, []⟩ : Row).childs) := by
  refine ⟨by decide, by decide, by decide, by decide, by decide, ?_⟩
  exact (((claim_C9 sW (by decide) (by decide) (by decide) (by decide)).1 1).mp
    (by decide)).2 3 _ rfl (by decide)

end Fest
